import Mathlib

/-!
Verification of the message-list reconciliation core and the near-link
navigation action of the zulip-mobile repository.

The repository sample contains two source files: the test suite of the
edit-sequence generator (`generateInboundEventEditSequence-test.js`) and the
navigation actions (`messagesActions.js`).  The generator, applier and
grouping producer themselves are not in the sample, so they are modelled
from the specification (each such definition carries a doc comment starting
with `Modelled from the spec:`).  `doNarrowNearLink` is embedded directly
from `messagesActions.js`.
-/

namespace ZulipSpec

/-! ## Data model (spec section 3) -/

/-- A recipient descriptor: either a stream+topic pair or the set of
private-message participants (spec section 3, Message). -/
inductive Recipient
  | streamTopic (streamId : Nat) (topic : String)
  | pm (users : List Nat)
deriving DecidableEq, Repr

/-- An immutable message record: unique monotonically increasing identifier,
send timestamp, sender identity, rendered content and a recipient
descriptor (spec section 3). -/
structure Message where
  id : Nat
  timestamp : Nat
  sender : Nat
  content : String
  recipient : Recipient
deriving DecidableEq, Repr

/-- Seconds per calendar day; `dayOf` maps a timestamp to its calendar day. -/
def secondsPerDay : Nat := 86400

/-- The calendar-day key of a message (spec section 3, Day node). -/
def dayOf (m : Message) : Nat := m.timestamp / secondsPerDay

/-- A view filter describing which messages are in scope
(spec section 3, Narrow). -/
inductive Narrow
  | home
  | stream (streamId : Nat)
  | topic (streamId : Nat) (topic : String)
  | pm (users : List Nat)
  | allPrivate
deriving DecidableEq, Repr

/-- Modelled from the spec: whether a recipient descriptor is in scope of a
narrow ("initial filtering", spec section 3). -/
def inNarrowR (n : Narrow) (r : Recipient) : Bool :=
  match n, r with
  | .home, _ => true
  | .stream sid, .streamTopic sid2 _ => sid = sid2
  | .stream _, .pm _ => false
  | .topic sid t, .streamTopic sid2 t2 => sid = sid2 && t = t2
  | .topic _ _, .pm _ => false
  | .pm us, .pm us2 => us = us2
  | .pm _, .streamTopic _ _ => false
  | .allPrivate, .pm _ => true
  | .allPrivate, .streamTopic _ _ => false

/-- Modelled from the spec: whether a message is in scope of a narrow; it
depends only on the message's recipient descriptor. -/
def inNarrow (n : Narrow) (m : Message) : Bool :=
  inNarrowR n m.recipient

/-- A message-item leaf of the Element Model tree: one message's rendered
content with its identifier as stable key (spec section 3). -/
structure MsgItem where
  id : Nat
  content : String
deriving DecidableEq, Repr

/-- A sender-run node: key is the sender identity; `anchorId` is the
identifier of its first message, used as the stable addressing key since
the same sender may head several runs (spec section 3). -/
structure SenderRun where
  sender : Nat
  anchorId : Nat
  items : List MsgItem
deriving DecidableEq, Repr

/-- A recipient node: key is the normalized recipient descriptor;
`anchorId` is the identifier of its first message. -/
structure RecipNode where
  recip : Recipient
  anchorId : Nat
  runs : List SenderRun
deriving DecidableEq, Repr

/-- A day node: key is the calendar day. -/
structure DayNode where
  day : Nat
  recips : List RecipNode
deriving DecidableEq, Repr

/-- The Element Model tree: an ordered sequence of day nodes. -/
abbrev Tree := List DayNode

/-- Rendered leaf of a message. -/
def toItem (m : Message) : MsgItem := ⟨m.id, m.content⟩

/-! ## Grouping producer (spec sections 3 and 6.3) -/

/-- Group a list into maximal chunks of adjacent elements with equal keys;
each chunk is returned as head plus rest (so chunks are never empty). -/
def chunksBy {α : Type} {κ : Type} [DecidableEq κ] (key : α → κ) :
    List α → List (α × List α)
  | [] => []
  | a :: rest =>
    match chunksBy key rest with
    | [] => [(a, [])]
    | (b, bs) :: more =>
      if key a = key b then (a, b :: bs) :: more
      else (a, []) :: (b, bs) :: more

/-- The flat contents of a chunk list, in order. -/
def chunkJoin {α : Type} (cs : List (α × List α)) : List α :=
  cs.flatMap fun c => c.1 :: c.2

/-- Modelled from the spec: a sender-run from one maximal chunk of
adjacent same-sender messages. -/
def mkRun (c : Message × List Message) : SenderRun :=
  ⟨c.1.sender, c.1.id, (c.1 :: c.2).map toItem⟩

/-- Modelled from the spec: a new sender-run starts whenever the sender
changes (spec section 3, Sender-run node). -/
def groupRuns (ms : List Message) : List SenderRun :=
  (chunksBy Message.sender ms).map mkRun

/-- Modelled from the spec: a recipient node from one maximal chunk of
adjacent same-recipient messages. -/
def mkRecip (c : Message × List Message) : RecipNode :=
  ⟨c.1.recipient, c.1.id, groupRuns (c.1 :: c.2)⟩

/-- Modelled from the spec: recipient boundaries are determined by the
content of adjacent messages (spec section 3). -/
def groupRecips (ms : List Message) : List RecipNode :=
  (chunksBy Message.recipient ms).map mkRecip

/-- Modelled from the spec: a day node from one maximal chunk of messages
sent on the same calendar day. -/
def mkDay (c : Message × List Message) : DayNode :=
  ⟨dayOf c.1, groupRecips (c.1 :: c.2)⟩

/-- Modelled from the spec: the grouping producer
`group(messages, narrow) -> Element Model tree` (spec sections 3 and 6.3).
Filters by the narrow, then nests day / recipient / sender-run chunks,
with boundaries computed from adjacent messages only.  Named after the
source collaborator `getMessageListElements`. -/
def getMessageListElements (messages : List Message) (narrow : Narrow) : Tree :=
  (chunksBy dayOf (messages.filter (inNarrow narrow))).map mkDay

/-! ## Edit operations (spec sections 3 and 6) -/

/-- Modelled from the spec: an edit operation — insert a subtree before an
addressed sibling (or append when the anchor is `none`), delete a subtree by
key, or replace a leaf's rendered content; each carries its ancestor key
path (spec section 3, Edit Operation, and section 6, Output of Generator).
Day nodes are addressed by day key, recipient and sender-run nodes by the
identifier of their first message, leaves by message identifier. -/
inductive EditOp
  | insDay (anchor : Option Nat) (node : DayNode)
  | delDay (day : Nat)
  | insRecip (day : Nat) (anchor : Option Nat) (node : RecipNode)
  | delRecip (day : Nat) (recipAnchor : Nat)
  | insRun (day : Nat) (recipAnchor : Nat) (anchor : Option Nat) (node : SenderRun)
  | delRun (day : Nat) (recipAnchor : Nat) (runAnchor : Nat)
  | insItem (day : Nat) (recipAnchor : Nat) (runAnchor : Nat) (anchor : Option Nat) (item : MsgItem)
  | delItem (day : Nat) (recipAnchor : Nat) (runAnchor : Nat) (id : Nat)
  | replace (day : Nat) (recipAnchor : Nat) (runAnchor : Nat) (id : Nat) (content : String)
deriving DecidableEq, Repr

/-- Whether an operation is a replace-leaf-content operation. -/
def EditOp.isReplace : EditOp → Bool
  | .replace _ _ _ _ _ => true
  | _ => false

/-- Whether an operation is an insert (at any level). -/
def EditOp.isInsert : EditOp → Bool
  | .insDay _ _ => true
  | .insRecip _ _ _ => true
  | .insRun _ _ _ _ => true
  | .insItem _ _ _ _ _ => true
  | _ => false

/-- Whether an operation is a delete (at any level). -/
def EditOp.isDelete : EditOp → Bool
  | .delDay _ => true
  | .delRecip _ _ => true
  | .delRun _ _ _ => true
  | .delItem _ _ _ _ => true
  | _ => false

/-- Addressing key of a day node. -/
def DayNode.key (d : DayNode) : Nat := d.day

/-- Addressing key of a recipient node. -/
def RecipNode.key (r : RecipNode) : Nat := r.anchorId

/-- Addressing key of a sender-run node. -/
def SenderRun.key (s : SenderRun) : Nat := s.anchorId

/-- Addressing key of a message-item leaf. -/
def MsgItem.key (i : MsgItem) : Nat := i.id

/-! ## Edit-sequence applier (spec section 4.2)

Modelled from the spec: each operation addresses its target through the
ancestor key path; a key that cannot be located is a fatal integrity
failure, represented by `none`. -/

/-- Insert `x` before the first sibling whose key is `k`; fails when no
sibling has that key. -/
def insertBeforeKey {α : Type} (key : α → Nat) (k : Nat) (x : α) :
    List α → Option (List α)
  | [] => none
  | a :: as =>
    if key a = k then some (x :: a :: as)
    else (insertBeforeKey key k x as).map (a :: ·)

/-- Insert `x` before the addressed sibling, or append at the end when the
anchor is `none` (append-at-boundary semantics, spec section 3). -/
def insertBefore {α : Type} (key : α → Nat) (anchor : Option Nat) (x : α)
    (l : List α) : Option (List α) :=
  match anchor with
  | none => some (l ++ [x])
  | some k => insertBeforeKey key k x l

/-- Delete the first sibling whose key is `k`; fails when absent. -/
def deleteByKey {α : Type} (key : α → Nat) (k : Nat) :
    List α → Option (List α)
  | [] => none
  | a :: as =>
    if key a = k then some as
    else (deleteByKey key k as).map (a :: ·)

/-- Modify the first sibling whose key is `k`; fails when absent or when
the modification fails. -/
def modifyByKey {α : Type} (key : α → Nat) (k : Nat) (f : α → Option α) :
    List α → Option (List α)
  | [] => none
  | a :: as =>
    if key a = k then (f a).map (· :: as)
    else (modifyByKey key k f as).map (a :: ·)

/-- Lift an item-list modification to a sender-run. -/
def liftItems (f : List MsgItem → Option (List MsgItem)) (sr : SenderRun) :
    Option SenderRun :=
  (f sr.items).map fun its => { sr with items := its }

/-- Lift a run-list modification to a recipient node. -/
def liftRuns (f : List SenderRun → Option (List SenderRun)) (rn : RecipNode) :
    Option RecipNode :=
  (f rn.runs).map fun rs => { rn with runs := rs }

/-- Lift a recipient-list modification to a day node. -/
def liftRecips (f : List RecipNode → Option (List RecipNode)) (dn : DayNode) :
    Option DayNode :=
  (f dn.recips).map fun rs => { dn with recips := rs }

/-- The action of an operation on the item list of its addressed run. -/
def applyItemOp (op : EditOp) (l : List MsgItem) : Option (List MsgItem) :=
  match op with
  | .insItem _ _ _ anc it => insertBefore MsgItem.key anc it l
  | .delItem _ _ _ i => deleteByKey MsgItem.key i l
  | .replace _ _ _ i c => modifyByKey MsgItem.key i (fun it => some { it with content := c }) l
  | _ => none

/-- The action of an operation on the run list of its addressed recipient
node: run-level operations act directly, item-level operations act inside
the addressed run. -/
def applyRunOp (op : EditOp) (l : List SenderRun) : Option (List SenderRun) :=
  match op with
  | .insRun _ _ anc node => insertBefore SenderRun.key anc node l
  | .delRun _ _ sa => deleteByKey SenderRun.key sa l
  | .insItem _ _ sa _ _ | .delItem _ _ sa _ | .replace _ _ sa _ _ =>
    modifyByKey SenderRun.key sa (liftItems (applyItemOp op)) l
  | _ => none

/-- The action of an operation on the recipient list of its addressed day. -/
def applyRecipOp (op : EditOp) (l : List RecipNode) : Option (List RecipNode) :=
  match op with
  | .insRecip _ anc node => insertBefore RecipNode.key anc node l
  | .delRecip _ ra => deleteByKey RecipNode.key ra l
  | .insRun _ ra _ _ | .delRun _ ra _ | .insItem _ ra _ _ _
  | .delItem _ ra _ _ | .replace _ ra _ _ _ =>
    modifyByKey RecipNode.key ra (liftRuns (applyRunOp op)) l
  | _ => none

/-- The action of one operation on the whole tree (spec section 4.2):
structural insert/remove/replace at the position addressed by the
ancestor key path, `none` on an integrity violation. -/
def applyDayOp (op : EditOp) (t : Tree) : Option Tree :=
  match op with
  | .insDay anc node => insertBefore DayNode.key anc node t
  | .delDay d => deleteByKey DayNode.key d t
  | .insRecip d _ _ | .delRecip d _ | .insRun d _ _ _ | .delRun d _ _
  | .insItem d _ _ _ _ | .delItem d _ _ _ | .replace d _ _ _ _ =>
    modifyByKey DayNode.key d (liftRecips (applyRecipOp op)) t

/-- Sequential composition of item-level actions. -/
def applyItemOps : List EditOp → List MsgItem → Option (List MsgItem)
  | [], l => some l
  | op :: ops, l => (applyItemOp op l).bind (applyItemOps ops)

/-- Sequential composition of run-level actions. -/
def applyRunOps : List EditOp → List SenderRun → Option (List SenderRun)
  | [], l => some l
  | op :: ops, l => (applyRunOp op l).bind (applyRunOps ops)

/-- Sequential composition of recipient-level actions. -/
def applyRecipOps : List EditOp → List RecipNode → Option (List RecipNode)
  | [], l => some l
  | op :: ops, l => (applyRecipOp op l).bind (applyRecipOps ops)

/-- Modelled from the spec: the edit-sequence applier
`apply(operations, liveTree)` (spec section 4.2), applying each operation
in sequence; `none` signals the fatal integrity failure of an operation
that addresses a key that is not found.  Named after the source
collaborator `applyEditSequence`. -/
def applyEditSequence : List EditOp → Tree → Option Tree
  | [], t => some t
  | op :: ops, t => (applyDayOp op t).bind (applyEditSequence ops)

/-! ## Edit-sequence generator (spec section 4.1) -/

/-- Modelled from the spec: the leaf-level merge walk, by message
identifier; equal identifiers with differing rendered content emit a
replace, identical leaves emit nothing (spec section 4.1). -/
def mergeItems (d ra sa : Nat) : List MsgItem → List MsgItem → List EditOp
  | [], [] => []
  | o :: os, [] => .delItem d ra sa o.id :: mergeItems d ra sa os []
  | [], n :: ns => .insItem d ra sa none n :: mergeItems d ra sa [] ns
  | o :: os, n :: ns =>
    if o.id = n.id then
      (if o.content = n.content then [] else [.replace d ra sa n.id n.content])
        ++ mergeItems d ra sa os ns
    else if o.id ≤ n.id then
      .delItem d ra sa o.id :: mergeItems d ra sa os (n :: ns)
    else
      .insItem d ra sa (some o.id) n :: mergeItems d ra sa (o :: os) ns

/-- Modelled from the spec: the sender-run-level merge walk.  Runs match
when they agree on sender identity key and first-message anchor; matched
runs recurse into their leaves, unmatched runs are deleted or inserted as
whole subtrees in anchor order (spec section 4.1, grouping-boundary
re-derivation). -/
def mergeRuns (d ra : Nat) : List SenderRun → List SenderRun → List EditOp
  | [], [] => []
  | o :: os, [] => .delRun d ra o.anchorId :: mergeRuns d ra os []
  | [], n :: ns => .insRun d ra none n :: mergeRuns d ra [] ns
  | o :: os, n :: ns =>
    if o.anchorId = n.anchorId ∧ o.sender = n.sender then
      mergeItems d ra o.anchorId o.items n.items ++ mergeRuns d ra os ns
    else if o.anchorId ≤ n.anchorId then
      .delRun d ra o.anchorId :: mergeRuns d ra os (n :: ns)
    else
      .insRun d ra (some o.anchorId) n :: mergeRuns d ra (o :: os) ns

/-- Modelled from the spec: the recipient-level merge walk, matching by
recipient key and first-message anchor (spec section 4.1). -/
def mergeRecips (d : Nat) : List RecipNode → List RecipNode → List EditOp
  | [], [] => []
  | o :: os, [] => .delRecip d o.anchorId :: mergeRecips d os []
  | [], n :: ns => .insRecip d none n :: mergeRecips d [] ns
  | o :: os, n :: ns =>
    if o.anchorId = n.anchorId ∧ o.recip = n.recip then
      mergeRuns d o.anchorId o.runs n.runs ++ mergeRecips d os ns
    else if o.anchorId ≤ n.anchorId then
      .delRecip d o.anchorId :: mergeRecips d os (n :: ns)
    else
      .insRecip d (some o.anchorId) n :: mergeRecips d (o :: os) ns

/-- Modelled from the spec: the day-level merge walk in ascending day-key
order, with two cursors over the sorted day sequences (spec section 4.1,
top-level policy). -/
def mergeDays : Tree → Tree → List EditOp
  | [], [] => []
  | o :: os, [] => .delDay o.day :: mergeDays os []
  | [], n :: ns => .insDay none n :: mergeDays [] ns
  | o :: os, n :: ns =>
    if o.day = n.day then
      mergeRecips o.day o.recips n.recips ++ mergeDays os ns
    else if o.day ≤ n.day then
      .delDay o.day :: mergeDays os (n :: ns)
    else
      .insDay (some o.day) n :: mergeDays (o :: os) ns

/-- A Render/Comparison State: Background Data (opaque, compared for
equality), Narrow and Element Model tree (spec section 3). -/
structure RenderState where
  backgroundData : Nat
  narrow : Narrow
  elements : Tree
deriving DecidableEq, Repr

/-- Modelled from the spec: the full-rebuild fallback — delete everything,
then insert everything (spec section 4.1, top-level policy). -/
def fullRebuild (old new : Tree) : List EditOp :=
  old.map (fun d => .delDay d.day) ++ new.map (fun d => .insDay none d)

/-- Modelled from the spec: the edit-sequence generator
`generate(oldState, newState)` (spec section 4.1).  When narrow or
Background Data differ by value it falls back to the full rebuild;
otherwise it runs the recursive merge walk.  Named after the source
`getEditSequence`. -/
def getEditSequence (oldState newState : RenderState) : List EditOp :=
  if oldState.narrow = newState.narrow ∧
      oldState.backgroundData = newState.backgroundData then
    mergeDays oldState.elements newState.elements
  else
    fullRebuild oldState.elements newState.elements

/-- The leaves of a tree in tree order. -/
def leaves (t : Tree) : List MsgItem :=
  t.flatMap fun dn => dn.recips.flatMap fun rn => rn.runs.flatMap fun r => r.items

/-- The upstream-source invariant assumed by the core: identifiers strictly
increase and timestamps never decrease along the sequence
(spec section 3, Message). -/
def MessagesWF (ms : List Message) : Prop :=
  List.Pairwise (fun a b => a.id < b.id ∧ a.timestamp ≤ b.timestamp) ms

instance (ms : List Message) : Decidable (MessagesWF ms) := by
  unfold MessagesWF
  infer_instance

/-! ## Near-link navigation (`src/message/messagesActions.js`) -/

/-- Narrow case analysis helpers from `src/utils/narrow`, as used by
`messagesActions.js`. -/
def isStreamNarrow : Narrow → Bool
  | .stream _ => true
  | _ => false

/-- Whether a narrow is a topic narrow. -/
def isTopicNarrow : Narrow → Bool
  | .topic _ _ => true
  | _ => false

/-- The stream id of a stream or topic narrow (the source throws on other
narrows; it is only called under a guard, so `none` is unreachable there). -/
def streamIdOfNarrow : Narrow → Option Nat
  | .stream sid => some sid
  | .topic sid _ => some sid
  | _ => none

/-- The topic of a topic narrow. -/
def topicOfNarrow : Narrow → Option String
  | .topic _ t => some t
  | _ => none

/-- `streamNarrow(streamId)` from `src/utils/narrow`. -/
def streamNarrow (streamId : Nat) : Narrow := .stream streamId

/-- `topicNarrow(streamId, topic)` from `src/utils/narrow`. -/
def topicNarrow (streamId : Nat) (topic : String) : Narrow := .topic streamId topic

/-- `caseNarrowDefault(narrow, cases, default)`: dispatch on the narrow's
case, with the stream and topic cases supplied and everything else falling
through to the default (the source passes thunks; their values are passed
here directly). -/
def caseNarrowDefault (n : Narrow) (streamCase topicCase deflt : Narrow) : Narrow :=
  match n with
  | .stream _ => streamCase
  | .topic _ _ => topicCase
  | _ => deflt

/-- The message type distinguished by `message.type` in the source:
`'stream'` or `'private'`. -/
inductive MessageType
  | stream
  | pm
deriving DecidableEq, Repr

/-- The fields of a fetched message that `doNarrowNearLink` reads:
`type`, `stream_id` and `subject`. -/
structure ServerMessage where
  type : MessageType
  stream_id : Nat
  subject : String
deriving DecidableEq, Repr

/-- The environment `doNarrowNearLink` reads through Redux selectors and the
API, embedded as explicit inputs: the local message cache lookup for the
near operand, the server feature level, the outcome of
`api.getSingleMessage` (`Except.error` models a thrown request, `some`/`none`
the returned value with `none` the unexpectedly falsy case), and the
edit-history checks `hasMessageEverHadTopic` / `hasMessageEverBeenInStream`
(which may be indeterminate, modelled by `Option Bool`). -/
structure NarrowLinkEnv where
  localMessage : Option ServerMessage
  zulipFeatureLevel : Int
  serverResponse : Except Unit (Option ServerMessage)
  everHadTopic : ServerMessage → String → Option Bool
  everInStream : ServerMessage → Nat → Option Bool

/-- The message-obtaining phase of `doNarrowNearLink`
(`messagesActions.js` lines 109-140): local cache first, else the server,
with `none` for every give-up path (feature level below 120, a thrown
request, or a falsy response). -/
def fetchedMessage (env : NarrowLinkEnv) : Option ServerMessage :=
  match env.localMessage with
  | some m => some m
  | none =>
    if env.zulipFeatureLevel < 120 then none
    else
      match env.serverResponse with
      | .error _ => none
      | .ok m => m

/-- Line 157-160 of `messagesActions.js`: the message is still in the
stream and/or topic in the link. -/
def stillInLinkedNarrow (topicOperand : Option String) (streamIdOperand : Option Nat)
    (m : ServerMessage) : Bool :=
  (match topicOperand with
   | none => true
   | some t => t = m.subject)
  && (match streamIdOperand with
      | none => true
      | some sid => sid = m.stream_id)

/-- Line 166-169 of `messagesActions.js`: the edit history establishes that
the message was never in the narrow specified by the link (the source
compares the selector result to `false` with `===`, so an indeterminate
result does not count). -/
def provablyNeverInLinkedNarrow (env : NarrowLinkEnv) (topicOperand : Option String)
    (streamIdOperand : Option Nat) (m : ServerMessage) : Bool :=
  (match topicOperand with
   | none => false
   | some t => env.everHadTopic m t = some false)
  || (match streamIdOperand with
      | none => false
      | some sid => env.everInStream m sid = some false)

/-- Line 96-97 of `messagesActions.js`: the `streamIdOperand` of the link's
narrow. -/
def streamIdOperandOf (narrow : Narrow) : Option Nat :=
  if isStreamNarrow narrow || isTopicNarrow narrow then streamIdOfNarrow narrow else none

/-- Line 98 of `messagesActions.js`: the `topicOperand` of the link's
narrow. -/
def topicOperandOf (narrow : Narrow) : Option String :=
  if isTopicNarrow narrow then topicOfNarrow narrow else none

/-- `doNarrowNearLink(narrow, nearOperand)` from `messagesActions.js`
(lines 54-198), embedded as the narrow/anchor pair it finally dispatches
through `doNarrow`; every control path dispatches exactly once. -/
def doNarrowNearLink (env : NarrowLinkEnv) (narrow : Narrow) (nearOperand : Nat) :
    Narrow × Nat :=
  let noMove : Narrow × Nat := (narrow, nearOperand)
  if streamIdOperandOf narrow = none ∧ topicOperandOf narrow = none then noMove
  else
    match fetchedMessage env with
    | none => noMove
    | some message =>
      if message.type = .pm then noMove
      else if stillInLinkedNarrow (topicOperandOf narrow) (streamIdOperandOf narrow) message then
        noMove
      else if provablyNeverInLinkedNarrow env (topicOperandOf narrow) (streamIdOperandOf narrow)
          message then
        noMove
      else
        (caseNarrowDefault narrow
          (streamNarrow message.stream_id)
          (topicNarrow message.stream_id message.subject)
          narrow,
         nearOperand)

/-! ## Structural relations between trees built from key-equal messages -/

/-- Two messages that agree on everything the grouping keys read (identifier,
timestamp, sender, recipient), leaving only the rendered content free. -/
def MsgRel (a b : Message) : Prop :=
  a.id = b.id ∧ a.timestamp = b.timestamp ∧ a.sender = b.sender ∧ a.recipient = b.recipient

/-- Leaves with the same identifier. -/
def ItemRel (i j : MsgItem) : Prop := i.id = j.id

/-- Sender-runs with the same keys and identifier-wise equal leaves. -/
def RunRel (r s : SenderRun) : Prop :=
  r.sender = s.sender ∧ r.anchorId = s.anchorId ∧ List.Forall₂ ItemRel r.items s.items

/-- Recipient nodes with the same keys and related runs. -/
def RecipRel (r s : RecipNode) : Prop :=
  r.recip = s.recip ∧ r.anchorId = s.anchorId ∧ List.Forall₂ RunRel r.runs s.runs

/-- Day nodes with the same day key and related recipient nodes. -/
def DayRel (d e : DayNode) : Prop :=
  d.day = e.day ∧ List.Forall₂ RecipRel d.recips e.recips

/-- Trees of identical shape and keys, possibly differing in leaf content. -/
def TreeRel (t u : Tree) : Prop := List.Forall₂ DayRel t u

/-- A leaf together with the ancestor key path addressing it. -/
structure LeafAt where
  day : Nat
  recipAnchor : Nat
  runAnchor : Nat
  item : MsgItem
deriving DecidableEq, Repr

/-- The leaves of a run list, annotated with their key paths. -/
def runLeaves (d ra : Nat) (rs : List SenderRun) : List LeafAt :=
  rs.flatMap fun r => r.items.map fun it => ⟨d, ra, r.anchorId, it⟩

/-- The leaves of a recipient list, annotated with their key paths. -/
def recipLeaves (d : Nat) (rcs : List RecipNode) : List LeafAt :=
  rcs.flatMap fun rn => runLeaves d rn.anchorId rn.runs

/-- The leaves of a tree, annotated with their key paths. -/
def treeLeaves (t : Tree) : List LeafAt :=
  t.flatMap fun dn => recipLeaves dn.day dn.recips

/-- The replace operations for every paired leaf whose rendered content
changed: the old side carries the addressing key path, the new side the
replacement leaves. -/
def replaceOps (olds : List LeafAt) (news : List MsgItem) : List EditOp :=
  ((olds.zip news).filter fun p => !(p.1.item.content == p.2.content)).map
    fun p => .replace p.1.day p.1.recipAnchor p.1.runAnchor p.2.id p.2.content

/-! ## Operation levels and tree well-formedness -/

/-- Whether an operation is an item-level operation addressed inside the
run with anchor `sa`. -/
def opItemAt (sa : Nat) : EditOp → Prop
  | .insItem _ _ sa2 _ _ => sa2 = sa
  | .delItem _ _ sa2 _ => sa2 = sa
  | .replace _ _ sa2 _ _ => sa2 = sa
  | _ => False

/-- Whether an operation is a run-level-or-deeper operation addressed
inside the recipient node with anchor `ra`. -/
def opRunAt (ra : Nat) : EditOp → Prop
  | .insRun _ ra2 _ _ => ra2 = ra
  | .delRun _ ra2 _ => ra2 = ra
  | .insItem _ ra2 _ _ _ => ra2 = ra
  | .delItem _ ra2 _ _ => ra2 = ra
  | .replace _ ra2 _ _ _ => ra2 = ra
  | _ => False

/-- Whether an operation is a recipient-level-or-deeper operation addressed
inside the day node with key `d`. -/
def opRecipAt (d : Nat) : EditOp → Prop
  | .insRecip d2 _ _ => d2 = d
  | .delRecip d2 _ => d2 = d
  | .insRun d2 _ _ _ => d2 = d
  | .delRun d2 _ _ => d2 = d
  | .insItem d2 _ _ _ _ => d2 = d
  | .delItem d2 _ _ _ => d2 = d
  | .replace d2 _ _ _ _ => d2 = d
  | _ => False

/-- Leaves in strictly increasing identifier order. -/
def ItemsWF (l : List MsgItem) : Prop :=
  List.Pairwise (fun a b => MsgItem.key a < MsgItem.key b) l

/-- Sender-runs in strictly increasing anchor order. -/
def RunsOrdered (l : List SenderRun) : Prop :=
  List.Pairwise (fun a b => SenderRun.key a < SenderRun.key b) l

/-- Recipient nodes in strictly increasing anchor order. -/
def RecipsOrdered (l : List RecipNode) : Prop :=
  List.Pairwise (fun a b => RecipNode.key a < RecipNode.key b) l

/-- Day nodes in strictly increasing day-key order. -/
def DaysOrdered (t : Tree) : Prop :=
  List.Pairwise (fun a b => DayNode.key a < DayNode.key b) t

/-- A well-formed recipient node: ordered runs with ordered leaves. -/
def RecipWFn (rn : RecipNode) : Prop :=
  RunsOrdered rn.runs ∧ ∀ r ∈ rn.runs, ItemsWF r.items

/-- A well-formed day node: ordered recipient nodes, recursively
well-formed. -/
def DayWFn (dn : DayNode) : Prop :=
  RecipsOrdered dn.recips ∧ ∀ rn ∈ dn.recips, RecipWFn rn

/-- A well-formed tree, as produced by the grouping producer from a
well-formed message sequence: strictly increasing keys at every level
(spec section 3, Element Model tree invariant). -/
def TreeWF (t : Tree) : Prop :=
  DaysOrdered t ∧ ∀ dn ∈ t, DayWFn dn

/-! ## Generic list helpers for the applier -/

theorem insertBefore_none {α : Type} (key : α → Nat) (x : α) (l : List α) :
    insertBefore key none x l = some (l ++ [x]) := rfl

theorem insertBeforeKey_append {α : Type} (key : α → Nat) (k : Nat) (x : α)
    {done : List α} {o : α} (l : List α)
    (hdone : ∀ y ∈ done, key y ≠ k) (ho : key o = k) :
    insertBeforeKey key k x (done ++ o :: l) = some (done ++ x :: o :: l) := by
  induction done with
  | nil => simp [insertBeforeKey, ho]
  | cons a as ih =>
    simp [insertBeforeKey, hdone a (by simp), ih fun y hy => hdone y (by simp [hy])]

theorem deleteByKey_append {α : Type} (key : α → Nat) (k : Nat)
    {done : List α} {o : α} (l : List α)
    (hdone : ∀ y ∈ done, key y ≠ k) (ho : key o = k) :
    deleteByKey key k (done ++ o :: l) = some (done ++ l) := by
  induction done with
  | nil => simp [deleteByKey, ho]
  | cons a as ih =>
    simp [deleteByKey, hdone a (by simp), ih fun y hy => hdone y (by simp [hy])]

theorem modifyByKey_append {α : Type} (key : α → Nat) (k : Nat) (f : α → Option α)
    {done : List α} {o : α} (l : List α)
    (hdone : ∀ y ∈ done, key y ≠ k) (ho : key o = k) :
    modifyByKey key k f (done ++ o :: l) = (f o).map (fun o2 => done ++ o2 :: l) := by
  induction done with
  | nil => cases h : f o <;> simp [modifyByKey, ho, h]
  | cons a as ih =>
    simp [modifyByKey, hdone a (by simp), ih fun y hy => hdone y (by simp [hy])]
    cases f o <;> rfl

theorem applyItemOps_append (s t : List EditOp) (l : List MsgItem) :
    applyItemOps (s ++ t) l = (applyItemOps s l).bind (applyItemOps t) := by
  induction s generalizing l with
  | nil => rfl
  | cons op ops ih =>
    simp only [List.cons_append, applyItemOps]
    cases applyItemOp op l <;> simp [ih]

theorem applyRunOps_append (s t : List EditOp) (l : List SenderRun) :
    applyRunOps (s ++ t) l = (applyRunOps s l).bind (applyRunOps t) := by
  induction s generalizing l with
  | nil => rfl
  | cons op ops ih =>
    simp only [List.cons_append, applyRunOps]
    cases applyRunOp op l <;> simp [ih]

theorem applyRecipOps_append (s t : List EditOp) (l : List RecipNode) :
    applyRecipOps (s ++ t) l = (applyRecipOps s l).bind (applyRecipOps t) := by
  induction s generalizing l with
  | nil => rfl
  | cons op ops ih =>
    simp only [List.cons_append, applyRecipOps]
    cases applyRecipOp op l <;> simp [ih]

theorem applyEditSequence_append (s t : List EditOp) (l : Tree) :
    applyEditSequence (s ++ t) l = (applyEditSequence s l).bind (applyEditSequence t) := by
  induction s generalizing l with
  | nil => rfl
  | cons op ops ih =>
    simp only [List.cons_append, applyEditSequence]
    cases applyDayOp op l <;> simp [ih]

/-! ## Pairwise key-order helpers -/

theorem pairwise_done_head {α : Type} {R : α → α → Prop} {done l : List α} {x : α}
    (h : List.Pairwise R (done ++ x :: l)) : ∀ y ∈ done, R y x := by
  rw [List.pairwise_append] at h
  exact fun y hy => h.2.2 y hy x (by simp)

theorem pairwise_remove_middle {α : Type} {R : α → α → Prop} {done l : List α} {x : α}
    (h : List.Pairwise R (done ++ x :: l)) : List.Pairwise R (done ++ l) :=
  List.Pairwise.sublist (List.Sublist.append_left (List.sublist_cons_self x l) done) h

theorem pairwise_insert_middle {α : Type} (key : α → Nat) {done l : List α} {x n : α}
    (h : List.Pairwise (fun a b => key a < key b) (done ++ x :: l))
    (hdn : ∀ y ∈ done, key y < key n) (hnx : key n < key x) :
    List.Pairwise (fun a b => key a < key b) (done ++ n :: x :: l) := by
  rw [List.pairwise_append] at h ⊢
  obtain ⟨h1, h2, h3⟩ := h
  refine ⟨h1, ?_, ?_⟩
  · rw [List.pairwise_cons] at h2 ⊢
    refine ⟨?_, List.Pairwise.cons h2.1 h2.2⟩
    intro z hz
    rcases List.mem_cons.mp hz with hz | hz
    · exact hz ▸ hnx
    · exact lt_trans hnx (h2.1 z hz)
  · intro y hy z hz
    rcases List.mem_cons.mp hz with hz | hz
    · exact hz ▸ hdn y hy
    · exact h3 y hy z hz

theorem pairwise_congr_middle {α : Type} (key : α → Nat) (a b : α) {l1 l2 : List α}
    (hab : key a = key b)
    (h : List.Pairwise (fun u v => key u < key v) (l1 ++ a :: l2)) :
    List.Pairwise (fun u v => key u < key v) (l1 ++ b :: l2) := by
  rw [List.pairwise_append] at h ⊢
  obtain ⟨h1, h2, h3⟩ := h
  rw [List.pairwise_cons] at h2 ⊢
  exact ⟨h1, ⟨fun z hz => hab ▸ h2.1 z hz, h2.2⟩,
    fun y hy z hz => by
      rcases List.mem_cons.mp hz with hz | hz
      · exact hz ▸ hab ▸ h3 y hy a (by simp)
      · exact h3 y hy z (by simp [hz])⟩

/-! ## Identity: merging equal trees emits nothing -/

theorem mergeItems_self (d ra sa : Nat) (l : List MsgItem) :
    mergeItems d ra sa l l = [] := by
  induction l with
  | nil => simp [mergeItems]
  | cons a l ih => simp [mergeItems, ih]

theorem mergeRuns_self (d ra : Nat) (l : List SenderRun) :
    mergeRuns d ra l l = [] := by
  induction l with
  | nil => simp [mergeRuns]
  | cons a l ih => simp [mergeRuns, mergeItems_self, ih]

theorem mergeRecips_self (d : Nat) (l : List RecipNode) :
    mergeRecips d l l = [] := by
  induction l with
  | nil => simp [mergeRecips]
  | cons a l ih => simp [mergeRecips, mergeRuns_self, ih]

theorem mergeDays_self (t : Tree) : mergeDays t t = [] := by
  induction t with
  | nil => simp [mergeDays]
  | cons a l ih => simp [mergeDays, mergeRecips_self, ih]

/-! ## From empty, and the full-rebuild fallback -/

theorem mergeDays_from_empty (t : Tree) :
    mergeDays [] t = t.map (.insDay none) := by
  induction t with
  | nil => simp [mergeDays]
  | cons a l ih => simp [mergeDays, ih]

theorem applyEditSequence_insDays (t acc : Tree) :
    applyEditSequence (t.map (.insDay none)) acc = some (acc ++ t) := by
  induction t generalizing acc with
  | nil => simp [applyEditSequence]
  | cons a l ih =>
    simp [applyEditSequence, applyDayOp, insertBefore, ih]

theorem applyEditSequence_delDays (t : Tree) :
    applyEditSequence (t.map (fun d => .delDay d.day)) t = some [] := by
  induction t with
  | nil => rfl
  | cons a l ih =>
    simp [applyEditSequence, applyDayOp, deleteByKey, DayNode.key, ih]

theorem fullRebuild_correct (old new : Tree) :
    applyEditSequence (fullRebuild old new) old = some new := by
  unfold fullRebuild
  rw [applyEditSequence_append, applyEditSequence_delDays]
  simp [applyEditSequence_insDays]

theorem from_empty_general (bg : Nat) (nw : Narrow) (t : Tree) :
    applyEditSequence (getEditSequence ⟨bg, nw, []⟩ ⟨bg, nw, t⟩) [] = some t := by
  simp [getEditSequence, mergeDays_from_empty, applyEditSequence_insDays]

/-- C2: for every state `S`, `generate(emptyState, S)` yields an operation
sequence that, applied to an empty tree, exactly reproduces the tree fully
rendered from `S` (spec section 8, From-empty equals full render). -/
theorem c2_from_empty_equals_full_render (bg : Nat) (nw : Narrow) (t : Tree) :
    applyEditSequence (getEditSequence ⟨bg, nw, []⟩ ⟨bg, nw, t⟩) [] = some t :=
  from_empty_general bg nw t

/-- C3: `generate(S, S)` — comparing a state to an identical copy — yields
the empty operation sequence (spec section 8, Identity). -/
theorem c3_identity (s : RenderState) : getEditSequence s s = [] := by
  simp only [getEditSequence, if_pos (And.intro rfl rfl)]
  exact mergeDays_self s.elements

/-- C6: when the narrows differ by value, or the Background Data differs,
the generator still returns a correct edit sequence — the full-rebuild
sequence — transforming the old tree into the new one, and the context
mismatch is handled (the applier succeeds), not raised as an error
(spec sections 4.1 and 7, stale narrow/context mismatch). -/
theorem c6_context_mismatch_full_rebuild (old new : RenderState)
    (h : old.narrow ≠ new.narrow ∨ old.backgroundData ≠ new.backgroundData) :
    applyEditSequence (getEditSequence old new) old.elements = some new.elements := by
  unfold getEditSequence
  rw [if_neg fun hc => by rcases h with h | h <;> exact h (by simp [hc.1, hc.2])]
  exact fullRebuild_correct _ _

/-- Witness for C6 at a concrete context change. -/
theorem c6_context_mismatch_full_rebuild_witness :
    applyEditSequence
      (getEditSequence ⟨0, .home, []⟩ ⟨0, .stream 1, []⟩)
      (RenderState.mk 0 .home []).elements
      = some (RenderState.mk 0 (.stream 1) []).elements :=
  c6_context_mismatch_full_rebuild ⟨0, .home, []⟩ ⟨0, .stream 1, []⟩
    (Or.inl (by simp))

/-- C10: the grouping producer is deterministic and pure — equal message
sequences and equal narrows produce structurally identical Element Model
trees (spec section 6.3). -/
theorem c10_group_deterministic (ms1 ms2 : List Message) (nw1 nw2 : Narrow)
    (hm : ms1 = ms2) (hn : nw1 = nw2) :
    getMessageListElements ms1 nw1 = getMessageListElements ms2 nw2 := by
  subst hm; subst hn; rfl

/-- Witness for C10 at concrete inputs. -/
theorem c10_group_deterministic_witness :
    getMessageListElements [⟨1, 5, 2, "hi", .pm [1, 2]⟩] .home
      = getMessageListElements [⟨1, 5, 2, "hi", .pm [1, 2]⟩] .home :=
  c10_group_deterministic _ _ _ _ rfl rfl

/-! ## Flattening the grouped tree -/

theorem chunksBy_join {α κ : Type} [DecidableEq κ] (key : α → κ) (l : List α) :
    chunkJoin (chunksBy key l) = l := by
  induction l with
  | nil => rfl
  | cons a rest ih =>
    cases h : chunksBy key rest with
    | nil =>
      rw [h] at ih
      simp only [chunkJoin, List.flatMap_nil] at ih
      simp [chunksBy, h, chunkJoin, ← ih]
    | cons c more =>
      rw [h] at ih
      obtain ⟨b, bs⟩ := c
      simp only [chunksBy, h]
      by_cases hk : key a = key b
      · rw [if_pos hk]
        simp only [chunkJoin, List.flatMap_cons] at ih ⊢
        simp [← ih]
      · rw [if_neg hk]
        simp only [chunkJoin, List.flatMap_cons] at ih ⊢
        simp [← ih]

theorem runs_items_flat (cs : List (Message × List Message)) :
    (cs.map mkRun).flatMap SenderRun.items = (chunkJoin cs).map toItem := by
  induction cs with
  | nil => rfl
  | cons c cs ih => simp [mkRun, chunkJoin, List.flatMap_cons, ih]

theorem groupRuns_items (ms : List Message) :
    (groupRuns ms).flatMap SenderRun.items = ms.map toItem := by
  rw [groupRuns, runs_items_flat, chunksBy_join]

theorem recips_items_flat (cs : List (Message × List Message)) :
    (cs.map mkRecip).flatMap (fun rn => rn.runs.flatMap SenderRun.items)
      = (chunkJoin cs).map toItem := by
  induction cs with
  | nil => rfl
  | cons c cs ih => simp [mkRecip, chunkJoin, List.flatMap_cons, ih, groupRuns_items]

theorem groupRecips_items (ms : List Message) :
    (groupRecips ms).flatMap (fun rn => rn.runs.flatMap SenderRun.items) = ms.map toItem := by
  rw [groupRecips, recips_items_flat, chunksBy_join]

theorem days_items_flat (cs : List (Message × List Message)) :
    leaves (cs.map mkDay) = (chunkJoin cs).map toItem := by
  induction cs with
  | nil => rfl
  | cons c cs ih =>
    simp only [leaves] at ih ⊢
    simp [mkDay, chunkJoin, List.flatMap_cons, ih, groupRecips_items]

/-- The leaves of the grouped tree, in tree order, are exactly the
narrow-filtered source messages, rendered, in source order. -/
theorem leaves_group (ms : List Message) (nw : Narrow) :
    leaves (getMessageListElements ms nw) = (ms.filter (inNarrow nw)).map toItem := by
  rw [getMessageListElements, days_items_flat, chunksBy_join]

/-- C9: in every Element Model tree produced from a message sequence with
strictly increasing identifiers, the message-item leaves, read in tree
order within and across all day/recipient/sender groupings, are the
narrow-filtered source sequence in order, and their identifiers strictly
increase (spec section 3, Element Model tree invariant). -/
theorem c9_leaf_order_invariant (ms : List Message) (nw : Narrow)
    (h : List.Pairwise (fun a b => a.id < b.id) ms) :
    (leaves (getMessageListElements ms nw)).map MsgItem.id
        = (ms.filter (inNarrow nw)).map Message.id
      ∧ List.Pairwise (· < ·) ((leaves (getMessageListElements ms nw)).map MsgItem.id) := by
  have hflat : (leaves (getMessageListElements ms nw)).map MsgItem.id
      = (ms.filter (inNarrow nw)).map Message.id := by
    rw [leaves_group, List.map_map]
    rfl
  refine ⟨hflat, ?_⟩
  rw [hflat, List.pairwise_map]
  exact List.Pairwise.filter _ h

/-- Witness for C9 at a concrete two-message sequence. -/
theorem c9_leaf_order_invariant_witness :
    (leaves (getMessageListElements
        [⟨1, 5, 2, "a", .pm [1, 2]⟩, ⟨4, 9, 2, "b", .pm [1, 2]⟩] .home)).map MsgItem.id
      = ([⟨1, 5, 2, "a", .pm [1, 2]⟩,
          (⟨4, 9, 2, "b", .pm [1, 2]⟩ : Message)].filter (inNarrow .home)).map Message.id
    ∧ List.Pairwise (· < ·)
        ((leaves (getMessageListElements
          [⟨1, 5, 2, "a", .pm [1, 2]⟩, ⟨4, 9, 2, "b", .pm [1, 2]⟩] .home)).map MsgItem.id) :=
  c9_leaf_order_invariant _ .home (by decide)

/-! ## Boundary-sensitive insert (C5) -/

/-- C5: when a newly inserted message `w` splits an existing sender-run
(`x`,`y` from one sender, `w` from a different sender, same day and
recipient, identifiers strictly between): the generator expresses the
change through delete and insert operations only — the displaced leaf is
deleted out of the affected old sender-run and the new sender-runs
(including the re-derived run holding `y`) are inserted as whole subtrees —
with no in-place patch (no replace operation) across the grouping boundary
(spec section 4.1, grouping-boundary re-derivation, and section 8,
Boundary-sensitive insert). -/
theorem c5_boundary_sensitive_insert (bg : Nat) (nw : Narrow) (x w y : Message)
    (hxw : x.id < w.id) (hwy : w.id < y.id)
    (hsy : y.sender = x.sender) (hsw : w.sender ≠ x.sender)
    (hdw : dayOf w = dayOf x) (hdy : dayOf y = dayOf x)
    (hrw : w.recipient = x.recipient) (hry : y.recipient = x.recipient)
    (hnx : inNarrow nw x = true) (hnw : inNarrow nw w = true)
    (hny : inNarrow nw y = true) :
    getEditSequence
        ⟨bg, nw, getMessageListElements [x, y] nw⟩
        ⟨bg, nw, getMessageListElements [x, w, y] nw⟩
      = [.delItem (dayOf x) x.id x.id y.id,
         .insRun (dayOf x) x.id none ⟨w.sender, w.id, [toItem w]⟩,
         .insRun (dayOf x) x.id none ⟨y.sender, y.id, [toItem y]⟩]
    ∧ ∀ op ∈ getEditSequence
        ⟨bg, nw, getMessageListElements [x, y] nw⟩
        ⟨bg, nw, getMessageListElements [x, w, y] nw⟩,
      op.isReplace = false ∧ (op.isInsert = true ∨ op.isDelete = true) := by
  have hold : getMessageListElements [x, y] nw
      = [⟨dayOf x, [⟨x.recipient, x.id, [⟨x.sender, x.id, [toItem x, toItem y]⟩]⟩]⟩] := by
    simp [getMessageListElements, List.filter, hnx, hny, chunksBy, hdy, hry, hsy,
      mkDay, mkRecip, mkRun, groupRecips, groupRuns]
  have hnew : getMessageListElements [x, w, y] nw
      = [⟨dayOf x, [⟨x.recipient, x.id,
          [⟨x.sender, x.id, [toItem x]⟩,
           ⟨w.sender, w.id, [toItem w]⟩,
           ⟨y.sender, y.id, [toItem y]⟩]⟩]⟩] := by
    simp [getMessageListElements, List.filter, hnx, hnw, hny, chunksBy, hdw, hdy, hrw, hry,
      hsy, hsw, Ne.symm hsw, mkDay, mkRecip, mkRun, groupRecips, groupRuns]
  have hops : getEditSequence
      ⟨bg, nw, getMessageListElements [x, y] nw⟩
      ⟨bg, nw, getMessageListElements [x, w, y] nw⟩
      = [.delItem (dayOf x) x.id x.id y.id,
         .insRun (dayOf x) x.id none ⟨w.sender, w.id, [toItem w]⟩,
         .insRun (dayOf x) x.id none ⟨y.sender, y.id, [toItem y]⟩] := by
    rw [getEditSequence, if_pos ⟨rfl, rfl⟩]
    simp only [hold, hnew]
    simp [mergeDays, mergeRecips, mergeRuns, mergeItems, toItem]
  refine ⟨hops, ?_⟩
  rw [hops]
  simp [EditOp.isReplace, EditOp.isInsert, EditOp.isDelete]

/-- Witness for C5 at three concrete messages. -/
theorem c5_boundary_sensitive_insert_witness :
    getEditSequence
        ⟨0, .home, getMessageListElements
          [⟨10, 100, 1, "a", .pm [1, 2]⟩, ⟨20, 200, 1, "c", .pm [1, 2]⟩] .home⟩
        ⟨0, .home, getMessageListElements
          [⟨10, 100, 1, "a", .pm [1, 2]⟩, ⟨15, 150, 2, "b", .pm [1, 2]⟩,
           ⟨20, 200, 1, "c", .pm [1, 2]⟩] .home⟩
      = [.delItem 0 10 10 20,
         .insRun 0 10 none ⟨2, 15, [⟨15, "b"⟩]⟩,
         .insRun 0 10 none ⟨1, 20, [⟨20, "c"⟩]⟩] :=
  (c5_boundary_sensitive_insert 0 .home
    ⟨10, 100, 1, "a", .pm [1, 2]⟩ ⟨15, 150, 2, "b", .pm [1, 2]⟩ ⟨20, 200, 1, "c", .pm [1, 2]⟩
    (by decide) (by decide) (by decide) (by decide) (by decide) (by decide)
    (by decide) (by decide) (by decide) (by decide) (by decide)).1

/-! ## Related trees: the merge walk emits only replaces -/

theorem forall₂_refl_of {α : Type} {R : α → α → Prop} (h : ∀ a, R a a) :
    ∀ l : List α, List.Forall₂ R l l
  | [] => .nil
  | a :: l => .cons (h a) (forall₂_refl_of h l)

theorem forall₂_append_of {α : Type} {R : α → α → Prop} {l₁ l₂ r₁ r₂ : List α}
    (h : List.Forall₂ R l₁ l₂) (h2 : List.Forall₂ R r₁ r₂) :
    List.Forall₂ R (l₁ ++ r₁) (l₂ ++ r₂) := by
  induction h with
  | nil => exact h2
  | cons hab _ ih => exact .cons hab ih

theorem forall₂_map_of {α β : Type} {R : α → α → Prop} {S : β → β → Prop}
    {f g : α → β} (hfg : ∀ a b, R a b → S (f a) (g b)) {xs ys : List α}
    (h : List.Forall₂ R xs ys) : List.Forall₂ S (xs.map f) (ys.map g) := by
  induction h with
  | nil => exact .nil
  | cons hab _ ih => exact .cons (hfg _ _ hab) ih

theorem forall₂_filter_of {α : Type} {R : α → α → Prop} (p : α → Bool)
    (hp : ∀ a b, R a b → p a = p b) {xs ys : List α}
    (h : List.Forall₂ R xs ys) : List.Forall₂ R (xs.filter p) (ys.filter p) := by
  induction h with
  | nil => exact .nil
  | @cons a b xs ys hab _ ih =>
    rw [List.filter_cons, List.filter_cons, ← hp _ _ hab]
    by_cases hpa : p a
    · rw [if_pos (by simp [hpa]), if_pos (by simp [hpa])]
      exact .cons hab ih
    · rw [if_neg (by simp [hpa]), if_neg (by simp [hpa])]
      exact ih

theorem chunksBy_rel {α κ : Type} [DecidableEq κ] (key : α → κ) (R : α → α → Prop)
    (hkey : ∀ a b, R a b → key a = key b) {xs ys : List α}
    (h : List.Forall₂ R xs ys) :
    List.Forall₂ (fun c d => R c.1 d.1 ∧ List.Forall₂ R c.2 d.2)
      (chunksBy key xs) (chunksBy key ys) := by
  induction h with
  | nil => exact .nil
  | @cons a b xs ys hab h ih =>
    cases hxs : chunksBy key xs with
    | nil =>
      rw [hxs] at ih
      have hys : chunksBy key ys = [] := List.forall₂_nil_left_iff.mp ih
      simp only [chunksBy, hxs, hys]
      exact .cons ⟨hab, .nil⟩ .nil
    | cons c more =>
      rw [hxs] at ih
      cases hys : chunksBy key ys with
      | nil =>
        rw [hys] at ih
        exact absurd ih (by intro hcon; cases hcon)
      | cons d more2 =>
        rw [hys] at ih
        cases ih with
        | cons hcd ihtail =>
          obtain ⟨c1, c2⟩ := c
          obtain ⟨d1, d2⟩ := d
          simp only [chunksBy, hxs, hys]
          by_cases hk : key a = key c1
          · rw [if_pos hk, if_pos (by rw [← hkey _ _ hab, ← hkey _ _ hcd.1]; exact hk)]
            exact .cons ⟨hab, .cons hcd.1 hcd.2⟩ ihtail
          · rw [if_neg hk, if_neg (by rw [← hkey _ _ hab, ← hkey _ _ hcd.1]; exact hk)]
            exact .cons ⟨hab, .nil⟩ (.cons hcd ihtail)

theorem groupRuns_rel {xs ys : List Message} (h : List.Forall₂ MsgRel xs ys) :
    List.Forall₂ RunRel (groupRuns xs) (groupRuns ys) := by
  unfold groupRuns
  refine forall₂_map_of ?_ (chunksBy_rel Message.sender MsgRel (fun a b hab => hab.2.2.1) h)
  rintro c d ⟨h1, h2⟩
  exact ⟨h1.2.2.1, h1.1, forall₂_map_of (fun a b hab => hab.1) (.cons h1 h2)⟩

theorem groupRecips_rel {xs ys : List Message} (h : List.Forall₂ MsgRel xs ys) :
    List.Forall₂ RecipRel (groupRecips xs) (groupRecips ys) := by
  unfold groupRecips
  refine forall₂_map_of ?_ (chunksBy_rel Message.recipient MsgRel (fun a b hab => hab.2.2.2) h)
  rintro c d ⟨h1, h2⟩
  exact ⟨h1.2.2.2, h1.1, groupRuns_rel (.cons h1 h2)⟩

theorem group_rel (nw : Narrow) {xs ys : List Message} (h : List.Forall₂ MsgRel xs ys) :
    TreeRel (getMessageListElements xs nw) (getMessageListElements ys nw) := by
  unfold getMessageListElements TreeRel
  have hf : List.Forall₂ MsgRel (xs.filter (inNarrow nw)) (ys.filter (inNarrow nw)) :=
    forall₂_filter_of _ (fun a b hab => by simp [inNarrow, hab.2.2.2]) h
  refine forall₂_map_of ?_
    (chunksBy_rel dayOf MsgRel (fun a b hab => by simp [dayOf, hab.2.1]) hf)
  rintro c d ⟨h1, h2⟩
  exact ⟨by simp [mkDay, dayOf, h1.2.1], groupRecips_rel (.cons h1 h2)⟩

theorem replaceOps_append {A : List LeafAt} {C : List MsgItem} (B : List LeafAt)
    (D : List MsgItem) (h : A.length = C.length) :
    replaceOps (A ++ B) (C ++ D) = replaceOps A C ++ replaceOps B D := by
  unfold replaceOps
  rw [List.zip_append h, List.filter_append, List.map_append]

theorem mergeItems_rel (d ra sa : Nat) {os ns : List MsgItem}
    (h : List.Forall₂ ItemRel os ns) :
    mergeItems d ra sa os ns
      = replaceOps (os.map fun it => ⟨d, ra, sa, it⟩) ns := by
  induction h with
  | nil => simp [mergeItems, replaceOps]
  | @cons o n os ns hon h ih =>
    have hid : o.id = n.id := hon
    by_cases hc : o.content = n.content
    · simp [mergeItems, hid, hc, ih, replaceOps]
    · simp [mergeItems, hid, hc, ih, replaceOps]

theorem runLeaves_length_eq (d ra : Nat) {os ns : List SenderRun}
    (h : List.Forall₂ RunRel os ns) :
    (runLeaves d ra os).length = (ns.flatMap fun r => r.items).length := by
  induction h with
  | nil => rfl
  | @cons o n os ns hon h ih =>
    simp only [runLeaves, List.flatMap_cons, List.length_append, List.length_map] at ih ⊢
    rw [hon.2.2.length_eq, ih]

theorem recipLeaves_length_eq (d : Nat) {os ns : List RecipNode}
    (h : List.Forall₂ RecipRel os ns) :
    (recipLeaves d os).length
      = (ns.flatMap fun rn => rn.runs.flatMap fun r => r.items).length := by
  induction h with
  | nil => rfl
  | @cons o n os ns hon h ih =>
    simp only [recipLeaves, List.flatMap_cons, List.length_append] at ih ⊢
    rw [runLeaves_length_eq d o.anchorId hon.2.2, ih]

theorem mergeRuns_rel (d ra : Nat) {os ns : List SenderRun}
    (h : List.Forall₂ RunRel os ns) :
    mergeRuns d ra os ns
      = replaceOps (runLeaves d ra os) (ns.flatMap fun r => r.items) := by
  induction h with
  | nil => simp [mergeRuns, replaceOps, runLeaves]
  | @cons o n os ns hon h ih =>
    obtain ⟨hs, ha, hitems⟩ := hon
    have hstep : mergeRuns d ra (o :: os) (n :: ns)
        = mergeItems d ra o.anchorId o.items n.items ++ mergeRuns d ra os ns := by
      rw [mergeRuns, if_pos ⟨ha, hs⟩]
    rw [hstep, mergeItems_rel d ra o.anchorId hitems, ih]
    simp only [runLeaves, List.flatMap_cons]
    rw [replaceOps_append _ _ (by simp [hitems.length_eq])]

theorem mergeRecips_rel (d : Nat) {os ns : List RecipNode}
    (h : List.Forall₂ RecipRel os ns) :
    mergeRecips d os ns
      = replaceOps (recipLeaves d os)
          (ns.flatMap fun rn => rn.runs.flatMap fun r => r.items) := by
  induction h with
  | nil => simp [mergeRecips, replaceOps, recipLeaves]
  | @cons o n os ns hon h ih =>
    obtain ⟨hr, ha, hruns⟩ := hon
    have hstep : mergeRecips d (o :: os) (n :: ns)
        = mergeRuns d o.anchorId o.runs n.runs ++ mergeRecips d os ns := by
      rw [mergeRecips, if_pos ⟨ha, hr⟩]
    rw [hstep, mergeRuns_rel d o.anchorId hruns, ih]
    simp only [recipLeaves, List.flatMap_cons]
    rw [replaceOps_append _ _ (runLeaves_length_eq d o.anchorId hruns)]

theorem mergeDays_rel {t u : Tree} (h : TreeRel t u) :
    mergeDays t u = replaceOps (treeLeaves t) (leaves u) := by
  induction h with
  | nil => simp [mergeDays, replaceOps, treeLeaves, leaves]
  | @cons o n os ns hon h ih =>
    obtain ⟨hd, hrecips⟩ := hon
    have hstep : mergeDays (o :: os) (n :: ns)
        = mergeRecips o.day o.recips n.recips ++ mergeDays os ns := by
      rw [mergeDays, if_pos hd]
    rw [hstep, mergeRecips_rel o.day hrecips, ih]
    simp only [treeLeaves, leaves, List.flatMap_cons]
    rw [replaceOps_append _ _ (recipLeaves_length_eq o.day hrecips)]

theorem runLeaves_item (d ra : Nat) (rs : List SenderRun) :
    (runLeaves d ra rs).map LeafAt.item = rs.flatMap fun r => r.items := by
  rw [runLeaves, List.map_flatMap]
  refine List.flatMap_congr fun r _ => ?_
  rw [List.map_map]
  rw [show (LeafAt.item ∘ fun it =>
    ({ day := d, recipAnchor := ra, runAnchor := r.anchorId, item := it } : LeafAt)) = id from rfl]
  exact List.map_id r.items

theorem recipLeaves_item (d : Nat) (rcs : List RecipNode) :
    (recipLeaves d rcs).map LeafAt.item
      = rcs.flatMap fun rn => rn.runs.flatMap fun r => r.items := by
  rw [recipLeaves, List.map_flatMap]
  exact List.flatMap_congr fun rn _ => runLeaves_item d rn.anchorId rn.runs

theorem treeLeaves_item (t : Tree) : (treeLeaves t).map LeafAt.item = leaves t := by
  rw [treeLeaves, leaves, List.map_flatMap]
  exact List.flatMap_congr fun dn _ => recipLeaves_item dn.day dn.recips

theorem replaceOps_length_proj (olds : List LeafAt) :
    ∀ news : List MsgItem,
      (replaceOps olds news).length
        = (((olds.map LeafAt.item).zip news).filter
            fun p => !(p.1.content == p.2.content)).length := by
  induction olds with
  | nil => intro news; rfl
  | cons o os ih =>
    intro news
    cases news with
    | nil => rfl
    | cons n ns =>
      have hns := ih ns
      simp only [replaceOps] at hns ⊢
      simp only [List.zip_cons_cons, List.map_cons, List.filter_cons]
      by_cases hc : (o.item.content == n.content)
      · simp [hc, hns]
      · simp [hc, hns]

theorem filter_zip_self (l : List MsgItem) :
    ((l.zip l).filter fun p => !(p.1.content == p.2.content)) = [] := by
  induction l with
  | nil => rfl
  | cons a l ih => simp [List.zip_cons_cons, List.filter_cons, ih]

/-- C4: when the old and new states differ only in one message's rendered
content (same identifier and grouping keys, all other messages identical,
the message in scope of the narrow), the generator emits exactly one
operation, a replace-leaf-content operation — no insert and no delete
(spec sections 4.1 leaf level and 8, Content-only change). -/
theorem c4_content_only_change (bg : Nat) (nw : Narrow) (A B : List Message)
    (m : Message) (c : String) (hin : inNarrow nw m = true) (hc : c ≠ m.content) :
    (getEditSequence
        ⟨bg, nw, getMessageListElements (A ++ m :: B) nw⟩
        ⟨bg, nw, getMessageListElements (A ++ { m with content := c } :: B) nw⟩).length = 1
    ∧ ∀ op ∈ getEditSequence
        ⟨bg, nw, getMessageListElements (A ++ m :: B) nw⟩
        ⟨bg, nw, getMessageListElements (A ++ { m with content := c } :: B) nw⟩,
      op.isReplace = true ∧ op.isInsert = false ∧ op.isDelete = false := by
  have hrefl : ∀ a : Message, MsgRel a a := fun a => ⟨rfl, rfl, rfl, rfl⟩
  have hrel : List.Forall₂ MsgRel (A ++ m :: B) (A ++ { m with content := c } :: B) :=
    forall₂_append_of (forall₂_refl_of hrefl A)
      (.cons ⟨rfl, rfl, rfl, rfl⟩ (forall₂_refl_of hrefl B))
  have htree := group_rel nw hrel
  have hops : getEditSequence
      ⟨bg, nw, getMessageListElements (A ++ m :: B) nw⟩
      ⟨bg, nw, getMessageListElements (A ++ { m with content := c } :: B) nw⟩
      = replaceOps (treeLeaves (getMessageListElements (A ++ m :: B) nw))
          (leaves (getMessageListElements (A ++ { m with content := c } :: B) nw)) := by
    rw [getEditSequence, if_pos ⟨rfl, rfl⟩]
    exact mergeDays_rel htree
  have hin2 : inNarrow nw { m with content := c } = true := hin
  constructor
  · rw [hops, replaceOps_length_proj, treeLeaves_item, leaves_group, leaves_group]
    rw [List.filter_append, List.filter_append,
      List.filter_cons_of_pos hin, List.filter_cons_of_pos hin2]
    rw [List.map_append, List.map_append, List.map_cons, List.map_cons]
    rw [List.zip_append rfl, List.zip_cons_cons]
    rw [List.filter_append, filter_zip_self, List.filter_cons]
    rw [if_pos (by simp [toItem]; exact fun hcc => hc hcc.symm)]
    simp [filter_zip_self]
  · intro op hop
    rw [hops] at hop
    simp only [replaceOps, List.mem_map] at hop
    obtain ⟨p, _, rfl⟩ := hop
    exact ⟨rfl, rfl, rfl⟩

/-- Witness for C4 at one concrete message. -/
theorem c4_content_only_change_witness :
    (getEditSequence
        ⟨0, .home, getMessageListElements ([] ++ ⟨1, 5, 2, "a", .pm [1, 2]⟩ :: []) .home⟩
        ⟨0, .home, getMessageListElements
          ([] ++ { (⟨1, 5, 2, "a", .pm [1, 2]⟩ : Message) with content := "b" } :: []) .home⟩).length
      = 1
    ∧ ∀ op ∈ getEditSequence
        ⟨0, .home, getMessageListElements ([] ++ ⟨1, 5, 2, "a", .pm [1, 2]⟩ :: []) .home⟩
        ⟨0, .home, getMessageListElements
          ([] ++ { (⟨1, 5, 2, "a", .pm [1, 2]⟩ : Message) with content := "b" } :: []) .home⟩,
      op.isReplace = true ∧ op.isInsert = false ∧ op.isDelete = false :=
  c4_content_only_change 0 .home [] [] ⟨1, 5, 2, "a", .pm [1, 2]⟩ "b"
    (by decide) (by decide)

/-! ## Where the merge walks emit their operations -/

theorem mergeItems_shape (d ra sa : Nat) :
    ∀ os ns : List MsgItem, ∀ op ∈ mergeItems d ra sa os ns,
      opItemAt sa op ∧ opRunAt ra op ∧ opRecipAt d op := by
  intro os ns
  induction os, ns using mergeItems.induct d ra sa with
  | case1 => simp [mergeItems]
  | case2 o os ih =>
    intro op hop
    rw [mergeItems] at hop
    rcases List.mem_cons.mp hop with h | h
    · subst h; exact ⟨rfl, rfl, rfl⟩
    · exact ih op h
  | case3 n ns ih =>
    intro op hop
    rw [mergeItems] at hop
    rcases List.mem_cons.mp hop with h | h
    · subst h; exact ⟨rfl, rfl, rfl⟩
    · exact ih op h
  | case4 o os n ns hid ih =>
    intro op hop
    rw [mergeItems, if_pos hid] at hop
    rcases List.mem_append.mp hop with h | h
    · by_cases hc : o.content = n.content
      · rw [if_pos hc] at h; cases h
      · rw [if_neg hc] at h
        rcases List.mem_singleton.mp h with rfl
        exact ⟨rfl, rfl, rfl⟩
    · exact ih op h
  | case5 o os n ns hid hle ih =>
    intro op hop
    rw [mergeItems, if_neg hid, if_pos hle] at hop
    rcases List.mem_cons.mp hop with h | h
    · subst h; exact ⟨rfl, rfl, rfl⟩
    · exact ih op h
  | case6 o os n ns hid hle ih =>
    intro op hop
    rw [mergeItems, if_neg hid, if_neg hle] at hop
    rcases List.mem_cons.mp hop with h | h
    · subst h; exact ⟨rfl, rfl, rfl⟩
    · exact ih op h

theorem mergeRuns_shape (d ra : Nat) :
    ∀ os ns : List SenderRun, ∀ op ∈ mergeRuns d ra os ns,
      opRunAt ra op ∧ opRecipAt d op := by
  intro os ns
  induction os, ns using mergeRuns.induct d ra with
  | case1 => simp [mergeRuns]
  | case2 o os ih =>
    intro op hop
    rw [mergeRuns] at hop
    rcases List.mem_cons.mp hop with h | h
    · subst h; exact ⟨rfl, rfl⟩
    · exact ih op h
  | case3 n ns ih =>
    intro op hop
    rw [mergeRuns] at hop
    rcases List.mem_cons.mp hop with h | h
    · subst h; exact ⟨rfl, rfl⟩
    · exact ih op h
  | case4 o os n ns hmatch ih =>
    intro op hop
    rw [mergeRuns, if_pos hmatch] at hop
    rcases List.mem_append.mp hop with h | h
    · exact (mergeItems_shape d ra o.anchorId o.items n.items op h).2
    · exact ih op h
  | case5 o os n ns hmatch hle ih =>
    intro op hop
    rw [mergeRuns, if_neg hmatch, if_pos hle] at hop
    rcases List.mem_cons.mp hop with h | h
    · subst h; exact ⟨rfl, rfl⟩
    · exact ih op h
  | case6 o os n ns hmatch hle ih =>
    intro op hop
    rw [mergeRuns, if_neg hmatch, if_neg hle] at hop
    rcases List.mem_cons.mp hop with h | h
    · subst h; exact ⟨rfl, rfl⟩
    · exact ih op h

theorem mergeRecips_shape (d : Nat) :
    ∀ os ns : List RecipNode, ∀ op ∈ mergeRecips d os ns, opRecipAt d op := by
  intro os ns
  induction os, ns using mergeRecips.induct d with
  | case1 => simp [mergeRecips]
  | case2 o os ih =>
    intro op hop
    rw [mergeRecips] at hop
    rcases List.mem_cons.mp hop with h | h
    · subst h; exact rfl
    · exact ih op h
  | case3 n ns ih =>
    intro op hop
    rw [mergeRecips] at hop
    rcases List.mem_cons.mp hop with h | h
    · subst h; exact rfl
    · exact ih op h
  | case4 o os n ns hmatch ih =>
    intro op hop
    rw [mergeRecips, if_pos hmatch] at hop
    rcases List.mem_append.mp hop with h | h
    · exact (mergeRuns_shape d o.anchorId o.runs n.runs op h).2
    · exact ih op h
  | case5 o os n ns hmatch hle ih =>
    intro op hop
    rw [mergeRecips, if_neg hmatch, if_pos hle] at hop
    rcases List.mem_cons.mp hop with h | h
    · subst h; exact rfl
    · exact ih op h
  | case6 o os n ns hmatch hle ih =>
    intro op hop
    rw [mergeRecips, if_neg hmatch, if_neg hle] at hop
    rcases List.mem_cons.mp hop with h | h
    · subst h; exact rfl
    · exact ih op h

/-! ## Operations act locally at their addressed node -/

theorem applyRunOp_item {sa : Nat} {op : EditOp} (h : opItemAt sa op)
    (l : List SenderRun) :
    applyRunOp op l = modifyByKey SenderRun.key sa (liftItems (applyItemOp op)) l := by
  cases op <;> simp only [opItemAt] at h
  all_goals first
    | exact h.elim
    | (subst h; rfl)

theorem applyRecipOp_run {ra : Nat} {op : EditOp} (h : opRunAt ra op)
    (l : List RecipNode) :
    applyRecipOp op l = modifyByKey RecipNode.key ra (liftRuns (applyRunOp op)) l := by
  cases op <;> simp only [opRunAt] at h
  all_goals first
    | exact h.elim
    | (subst h; rfl)

theorem applyDayOp_recip {d : Nat} {op : EditOp} (h : opRecipAt d op) (t : Tree) :
    applyDayOp op t = modifyByKey DayNode.key d (liftRecips (applyRecipOp op)) t := by
  cases op <;> simp only [opRecipAt] at h
  all_goals first
    | exact h.elim
    | (subst h; rfl)

theorem runScript_at {sa : Nat} {ops : List EditOp}
    (hops : ∀ op ∈ ops, opItemAt sa op) :
    ∀ (done os : List SenderRun) (o : SenderRun) (its2 : List MsgItem),
      (∀ r ∈ done, SenderRun.key r ≠ sa) → SenderRun.key o = sa →
      applyItemOps ops o.items = some its2 →
      applyRunOps ops (done ++ o :: os) = some (done ++ { o with items := its2 } :: os) := by
  induction ops with
  | nil =>
    intro done os o its2 hdone ho hinner
    simp only [applyItemOps] at hinner
    cases hinner
    rfl
  | cons op ops ih =>
    intro done os o its2 hdone ho hinner
    simp only [applyItemOps] at hinner
    cases h1 : applyItemOp op o.items with
    | none => rw [h1] at hinner; cases hinner
    | some l1 =>
      rw [h1] at hinner
      simp only [Option.some_bind] at hinner
      have hstep : applyRunOp op (done ++ o :: os)
          = some (done ++ { o with items := l1 } :: os) := by
        rw [applyRunOp_item (hops op (by simp)) _,
          modifyByKey_append SenderRun.key sa _ os hdone ho]
        simp [liftItems, h1]
      simp only [applyRunOps, hstep, Option.some_bind]
      exact ih (fun op2 hop2 => hops op2 (by simp [hop2])) done os
        { o with items := l1 } its2 hdone ho hinner

theorem recipScript_at {ra : Nat} {ops : List EditOp}
    (hops : ∀ op ∈ ops, opRunAt ra op) :
    ∀ (done os : List RecipNode) (o : RecipNode) (rs2 : List SenderRun),
      (∀ r ∈ done, RecipNode.key r ≠ ra) → RecipNode.key o = ra →
      applyRunOps ops o.runs = some rs2 →
      applyRecipOps ops (done ++ o :: os) = some (done ++ { o with runs := rs2 } :: os) := by
  induction ops with
  | nil =>
    intro done os o rs2 hdone ho hinner
    simp only [applyRunOps] at hinner
    cases hinner
    rfl
  | cons op ops ih =>
    intro done os o rs2 hdone ho hinner
    simp only [applyRunOps] at hinner
    cases h1 : applyRunOp op o.runs with
    | none => rw [h1] at hinner; cases hinner
    | some l1 =>
      rw [h1] at hinner
      simp only [Option.some_bind] at hinner
      have hstep : applyRecipOp op (done ++ o :: os)
          = some (done ++ { o with runs := l1 } :: os) := by
        rw [applyRecipOp_run (hops op (by simp)) _,
          modifyByKey_append RecipNode.key ra _ os hdone ho]
        simp [liftRuns, h1]
      simp only [applyRecipOps, hstep, Option.some_bind]
      exact ih (fun op2 hop2 => hops op2 (by simp [hop2])) done os
        { o with runs := l1 } rs2 hdone ho hinner

theorem dayScript_at {d : Nat} {ops : List EditOp}
    (hops : ∀ op ∈ ops, opRecipAt d op) :
    ∀ (done os : Tree) (o : DayNode) (rcs2 : List RecipNode),
      (∀ r ∈ done, DayNode.key r ≠ d) → DayNode.key o = d →
      applyRecipOps ops o.recips = some rcs2 →
      applyEditSequence ops (done ++ o :: os) = some (done ++ { o with recips := rcs2 } :: os) := by
  induction ops with
  | nil =>
    intro done os o rcs2 hdone ho hinner
    simp only [applyRecipOps] at hinner
    cases hinner
    rfl
  | cons op ops ih =>
    intro done os o rcs2 hdone ho hinner
    simp only [applyRecipOps] at hinner
    cases h1 : applyRecipOp op o.recips with
    | none => rw [h1] at hinner; cases hinner
    | some l1 =>
      rw [h1] at hinner
      simp only [Option.some_bind] at hinner
      have hstep : applyDayOp op (done ++ o :: os)
          = some (done ++ { o with recips := l1 } :: os) := by
        rw [applyDayOp_recip (hops op (by simp)) _,
          modifyByKey_append DayNode.key d _ os hdone ho]
        simp [liftRecips, h1]
      simp only [applyEditSequence, hstep, Option.some_bind]
      exact ih (fun op2 hop2 => hops op2 (by simp [hop2])) done os
        { o with recips := l1 } rcs2 hdone ho hinner

/-! ## Correctness of the merge walk against the applier -/

theorem done_key_ne {α : Type} (key : α → Nat) {done l : List α} {o : α}
    (h : List.Pairwise (fun a b => key a < key b) (done ++ o :: l)) :
    ∀ y ∈ done, key y ≠ key o :=
  fun y hy => Nat.ne_of_lt (pairwise_done_head h y hy)

theorem append_middle {α : Type} (done : List α) (x : α) (l : List α) :
    done ++ x :: l = (done ++ [x]) ++ l := by simp

theorem mergeItems_correct (d ra sa : Nat) :
    ∀ os ns : List MsgItem, ∀ done : List MsgItem,
      ItemsWF (done ++ os) → ItemsWF (done ++ ns) →
      applyItemOps (mergeItems d ra sa os ns) (done ++ os) = some (done ++ ns) := by
  intro os ns
  induction os, ns using mergeItems.induct d ra sa with
  | case1 =>
    intro done h1 h2
    simp [mergeItems, applyItemOps]
  | case2 o os ih =>
    intro done h1 h2
    rw [show mergeItems d ra sa (o :: os) []
        = .delItem d ra sa o.id :: mergeItems d ra sa os [] from by rw [mergeItems]]
    simp only [applyItemOps]
    have hdel : applyItemOp (.delItem d ra sa o.id) (done ++ o :: os) = some (done ++ os) := by
      simp only [applyItemOp]
      exact deleteByKey_append MsgItem.key o.id os (done_key_ne MsgItem.key h1) rfl
    rw [hdel]
    simp only [Option.some_bind]
    exact ih done (pairwise_remove_middle h1) h2
  | case3 n ns ih =>
    intro done h1 h2
    rw [show mergeItems d ra sa [] (n :: ns)
        = .insItem d ra sa none n :: mergeItems d ra sa [] ns from by rw [mergeItems]]
    simp only [applyItemOps]
    have hins : applyItemOp (.insItem d ra sa none n) (done ++ [])
        = some ((done ++ [n]) ++ []) := by
      simp [applyItemOp, insertBefore]
    rw [hins]
    simp only [Option.some_bind]
    rw [show done ++ n :: ns = (done ++ [n]) ++ ns from append_middle done n ns]
    refine ih (done ++ [n]) ?_ ?_
    · have hsub : List.Sublist ((done ++ [n]) ++ []) (done ++ n :: ns) := by
        simp only [List.append_nil]
        rw [append_middle done n ns]
        exact List.sublist_append_left _ _
      exact List.Pairwise.sublist hsub h2
    · rw [← append_middle]
      exact h2
  | case4 o os n ns hid ih =>
    intro done h1 h2
    rw [show mergeItems d ra sa (o :: os) (n :: ns)
        = (if o.content = n.content then [] else [.replace d ra sa n.id n.content])
          ++ mergeItems d ra sa os ns from by rw [mergeItems, if_pos hid]]
    rw [applyItemOps_append]
    by_cases hc : o.content = n.content
    · have hon : o = n := by
        cases o; cases n
        simp only [MsgItem.mk.injEq]
        exact ⟨hid, hc⟩
      subst hon
      rw [if_pos rfl]
      simp only [applyItemOps, Option.some_bind]
      rw [append_middle done o os, append_middle done o ns]
      exact ih (done ++ [o]) (by rw [← append_middle]; exact h1)
        (by rw [← append_middle]; exact h2)
    · rw [if_neg hc]
      simp only [applyItemOps]
      have hrepl : applyItemOp (.replace d ra sa n.id n.content) (done ++ o :: os)
          = some (done ++ n :: os) := by
        simp only [applyItemOp]
        rw [modifyByKey_append MsgItem.key n.id _ os
          (fun y hy => hid ▸ done_key_ne MsgItem.key h1 y hy) hid]
        have : ({ o with content := n.content } : MsgItem) = n := by
          cases o; cases n
          simp_all
        rw [this]
        rfl
      rw [hrepl]
      simp only [Option.some_bind]
      rw [append_middle done n os, append_middle done n ns]
      refine ih (done ++ [n]) ?_ ?_
      · rw [← append_middle]
        exact pairwise_congr_middle MsgItem.key o n hid h1
      · rw [← append_middle]
        exact h2
  | case5 o os n ns hid hle ih =>
    intro done h1 h2
    rw [show mergeItems d ra sa (o :: os) (n :: ns)
        = .delItem d ra sa o.id :: mergeItems d ra sa os (n :: ns) from by
      rw [mergeItems, if_neg hid, if_pos hle]]
    simp only [applyItemOps]
    have hdel : applyItemOp (.delItem d ra sa o.id) (done ++ o :: os) = some (done ++ os) := by
      simp only [applyItemOp]
      exact deleteByKey_append MsgItem.key o.id os (done_key_ne MsgItem.key h1) rfl
    rw [hdel]
    simp only [Option.some_bind]
    exact ih done (pairwise_remove_middle h1) h2
  | case6 o os n ns hid hle ih =>
    intro done h1 h2
    have hlt : n.id < o.id := by omega
    rw [show mergeItems d ra sa (o :: os) (n :: ns)
        = .insItem d ra sa (some o.id) n :: mergeItems d ra sa (o :: os) ns from by
      rw [mergeItems, if_neg hid, if_neg hle]]
    simp only [applyItemOps]
    have hdn : ∀ y ∈ done, MsgItem.key y < MsgItem.key n := pairwise_done_head h2
    have hins : applyItemOp (.insItem d ra sa (some o.id) n) (done ++ o :: os)
        = some (done ++ n :: o :: os) := by
      simp only [applyItemOp, insertBefore]
      exact insertBeforeKey_append MsgItem.key o.id n os
        (fun y hy => Nat.ne_of_lt (lt_trans (hdn y hy) hlt)) rfl
    rw [hins]
    simp only [Option.some_bind]
    rw [append_middle done n (o :: os), append_middle done n ns]
    refine ih (done ++ [n]) ?_ ?_
    · rw [← append_middle]
      exact pairwise_insert_middle MsgItem.key h1 hdn hlt
    · rw [← append_middle]
      exact h2

theorem mergeRuns_correct (d ra : Nat) :
    ∀ os ns : List SenderRun, ∀ done : List SenderRun,
      RunsOrdered (done ++ os) → RunsOrdered (done ++ ns) →
      (∀ r ∈ os, ItemsWF r.items) → (∀ r ∈ ns, ItemsWF r.items) →
      applyRunOps (mergeRuns d ra os ns) (done ++ os) = some (done ++ ns) := by
  intro os ns
  induction os, ns using mergeRuns.induct d ra with
  | case1 =>
    intro done h1 h2 h3 h4
    simp [mergeRuns, applyRunOps]
  | case2 o os ih =>
    intro done h1 h2 h3 h4
    rw [show mergeRuns d ra (o :: os) []
        = .delRun d ra o.anchorId :: mergeRuns d ra os [] from by rw [mergeRuns]]
    simp only [applyRunOps]
    have hdel : applyRunOp (.delRun d ra o.anchorId) (done ++ o :: os)
        = some (done ++ os) := by
      simp only [applyRunOp]
      exact deleteByKey_append SenderRun.key o.anchorId os (done_key_ne SenderRun.key h1) rfl
    rw [hdel]
    simp only [Option.some_bind]
    exact ih done (pairwise_remove_middle h1) h2 (fun r hr => h3 r (by simp [hr])) h4
  | case3 n ns ih =>
    intro done h1 h2 h3 h4
    rw [show mergeRuns d ra [] (n :: ns)
        = .insRun d ra none n :: mergeRuns d ra [] ns from by rw [mergeRuns]]
    simp only [applyRunOps]
    have hins : applyRunOp (.insRun d ra none n) (done ++ [])
        = some ((done ++ [n]) ++ []) := by
      simp [applyRunOp, insertBefore]
    rw [hins]
    simp only [Option.some_bind]
    rw [show done ++ n :: ns = (done ++ [n]) ++ ns from append_middle done n ns]
    refine ih (done ++ [n]) ?_ ?_ (fun r hr => absurd hr (List.not_mem_nil r)) ?_
    · have hsub : List.Sublist ((done ++ [n]) ++ []) (done ++ n :: ns) := by
        simp only [List.append_nil]
        rw [append_middle done n ns]
        exact List.sublist_append_left _ _
      exact List.Pairwise.sublist hsub h2
    · rw [← append_middle]
      exact h2
    · exact fun r hr => h4 r (by simp [hr])
  | case4 o os n ns hmatch ih =>
    intro done h1 h2 h3 h4
    obtain ⟨ha, hs⟩ := hmatch
    rw [show mergeRuns d ra (o :: os) (n :: ns)
        = mergeItems d ra o.anchorId o.items n.items ++ mergeRuns d ra os ns from by
      rw [mergeRuns, if_pos ⟨ha, hs⟩]]
    rw [applyRunOps_append]
    have hinner : applyItemOps (mergeItems d ra o.anchorId o.items n.items) o.items
        = some n.items := by
      have := mergeItems_correct d ra o.anchorId o.items n.items []
        (by simpa using h3 o (by simp)) (by simpa using h4 n (by simp))
      simpa using this
    have hscript := runScript_at
      (fun op hop => (mergeItems_shape d ra o.anchorId o.items n.items op hop).1)
      done os o n.items (done_key_ne SenderRun.key h1) rfl hinner
    rw [hscript]
    simp only [Option.some_bind]
    have hn : ({ o with items := n.items } : SenderRun) = n := by
      cases o; cases n
      simp_all [SenderRun.key]
    rw [hn]
    rw [append_middle done n os, append_middle done n ns]
    refine ih (done ++ [n]) ?_ ?_ (fun r hr => h3 r (by simp [hr]))
      (fun r hr => h4 r (by simp [hr]))
    · rw [← append_middle]
      exact pairwise_congr_middle SenderRun.key o n ha h1
    · rw [← append_middle]
      exact h2
  | case5 o os n ns hmatch hle ih =>
    intro done h1 h2 h3 h4
    rw [show mergeRuns d ra (o :: os) (n :: ns)
        = .delRun d ra o.anchorId :: mergeRuns d ra os (n :: ns) from by
      rw [mergeRuns, if_neg hmatch, if_pos hle]]
    simp only [applyRunOps]
    have hdel : applyRunOp (.delRun d ra o.anchorId) (done ++ o :: os)
        = some (done ++ os) := by
      simp only [applyRunOp]
      exact deleteByKey_append SenderRun.key o.anchorId os (done_key_ne SenderRun.key h1) rfl
    rw [hdel]
    simp only [Option.some_bind]
    exact ih done (pairwise_remove_middle h1) h2 (fun r hr => h3 r (by simp [hr])) h4
  | case6 o os n ns hmatch hle ih =>
    intro done h1 h2 h3 h4
    have hlt : n.anchorId < o.anchorId := by omega
    rw [show mergeRuns d ra (o :: os) (n :: ns)
        = .insRun d ra (some o.anchorId) n :: mergeRuns d ra (o :: os) ns from by
      rw [mergeRuns, if_neg hmatch, if_neg hle]]
    simp only [applyRunOps]
    have hdn : ∀ y ∈ done, SenderRun.key y < SenderRun.key n := pairwise_done_head h2
    have hins : applyRunOp (.insRun d ra (some o.anchorId) n) (done ++ o :: os)
        = some (done ++ n :: o :: os) := by
      simp only [applyRunOp, insertBefore]
      exact insertBeforeKey_append SenderRun.key o.anchorId n os
        (fun y hy => Nat.ne_of_lt (lt_trans (hdn y hy) hlt)) rfl
    rw [hins]
    simp only [Option.some_bind]
    rw [append_middle done n (o :: os), append_middle done n ns]
    refine ih (done ++ [n]) ?_ ?_ (fun r hr => h3 r hr) (fun r hr => h4 r (by simp [hr]))
    · rw [← append_middle]
      exact pairwise_insert_middle SenderRun.key h1 hdn hlt
    · rw [← append_middle]
      exact h2

theorem mergeRecips_correct (d : Nat) :
    ∀ os ns : List RecipNode, ∀ done : List RecipNode,
      RecipsOrdered (done ++ os) → RecipsOrdered (done ++ ns) →
      (∀ rn ∈ os, RecipWFn rn) → (∀ rn ∈ ns, RecipWFn rn) →
      applyRecipOps (mergeRecips d os ns) (done ++ os) = some (done ++ ns) := by
  intro os ns
  induction os, ns using mergeRecips.induct d with
  | case1 =>
    intro done h1 h2 h3 h4
    simp [mergeRecips, applyRecipOps]
  | case2 o os ih =>
    intro done h1 h2 h3 h4
    rw [show mergeRecips d (o :: os)
        [] = .delRecip d o.anchorId :: mergeRecips d os [] from by rw [mergeRecips]]
    simp only [applyRecipOps]
    have hdel : applyRecipOp (.delRecip d o.anchorId) (done ++ o :: os)
        = some (done ++ os) := by
      simp only [applyRecipOp]
      exact deleteByKey_append RecipNode.key o.anchorId os (done_key_ne RecipNode.key h1) rfl
    rw [hdel]
    simp only [Option.some_bind]
    exact ih done (pairwise_remove_middle h1) h2 (fun r hr => h3 r (by simp [hr])) h4
  | case3 n ns ih =>
    intro done h1 h2 h3 h4
    rw [show mergeRecips d [] (n :: ns)
        = .insRecip d none n :: mergeRecips d [] ns from by rw [mergeRecips]]
    simp only [applyRecipOps]
    have hins : applyRecipOp (.insRecip d none n) (done ++ [])
        = some ((done ++ [n]) ++ []) := by
      simp [applyRecipOp, insertBefore]
    rw [hins]
    simp only [Option.some_bind]
    rw [show done ++ n :: ns = (done ++ [n]) ++ ns from append_middle done n ns]
    refine ih (done ++ [n]) ?_ ?_ (fun r hr => absurd hr (List.not_mem_nil r)) ?_
    · have hsub : List.Sublist ((done ++ [n]) ++ []) (done ++ n :: ns) := by
        simp only [List.append_nil]
        rw [append_middle done n ns]
        exact List.sublist_append_left _ _
      exact List.Pairwise.sublist hsub h2
    · rw [← append_middle]
      exact h2
    · exact fun r hr => h4 r (by simp [hr])
  | case4 o os n ns hmatch ih =>
    intro done h1 h2 h3 h4
    obtain ⟨ha, hr⟩ := hmatch
    rw [show mergeRecips d (o :: os) (n :: ns)
        = mergeRuns d o.anchorId o.runs n.runs ++ mergeRecips d os ns from by
      rw [mergeRecips, if_pos ⟨ha, hr⟩]]
    rw [applyRecipOps_append]
    have hinner : applyRunOps (mergeRuns d o.anchorId o.runs n.runs) o.runs
        = some n.runs := by
      have := mergeRuns_correct d o.anchorId o.runs n.runs []
        (by simpa using (h3 o (by simp)).1) (by simpa using (h4 n (by simp)).1)
        (h3 o (by simp)).2 (h4 n (by simp)).2
      simpa using this
    have hscript := recipScript_at
      (fun op hop => (mergeRuns_shape d o.anchorId o.runs n.runs op hop).1)
      done os o n.runs (done_key_ne RecipNode.key h1) rfl hinner
    rw [hscript]
    simp only [Option.some_bind]
    have hn : ({ o with runs := n.runs } : RecipNode) = n := by
      cases o; cases n
      simp_all [RecipNode.key]
    rw [hn]
    rw [append_middle done n os, append_middle done n ns]
    refine ih (done ++ [n]) ?_ ?_ (fun r hr2 => h3 r (by simp [hr2]))
      (fun r hr2 => h4 r (by simp [hr2]))
    · rw [← append_middle]
      exact pairwise_congr_middle RecipNode.key o n ha h1
    · rw [← append_middle]
      exact h2
  | case5 o os n ns hmatch hle ih =>
    intro done h1 h2 h3 h4
    rw [show mergeRecips d (o :: os) (n :: ns)
        = .delRecip d o.anchorId :: mergeRecips d os (n :: ns) from by
      rw [mergeRecips, if_neg hmatch, if_pos hle]]
    simp only [applyRecipOps]
    have hdel : applyRecipOp (.delRecip d o.anchorId) (done ++ o :: os)
        = some (done ++ os) := by
      simp only [applyRecipOp]
      exact deleteByKey_append RecipNode.key o.anchorId os (done_key_ne RecipNode.key h1) rfl
    rw [hdel]
    simp only [Option.some_bind]
    exact ih done (pairwise_remove_middle h1) h2 (fun r hr => h3 r (by simp [hr])) h4
  | case6 o os n ns hmatch hle ih =>
    intro done h1 h2 h3 h4
    have hlt : n.anchorId < o.anchorId := by omega
    rw [show mergeRecips d (o :: os) (n :: ns)
        = .insRecip d (some o.anchorId) n :: mergeRecips d (o :: os) ns from by
      rw [mergeRecips, if_neg hmatch, if_neg hle]]
    simp only [applyRecipOps]
    have hdn : ∀ y ∈ done, RecipNode.key y < RecipNode.key n := pairwise_done_head h2
    have hins : applyRecipOp (.insRecip d (some o.anchorId) n) (done ++ o :: os)
        = some (done ++ n :: o :: os) := by
      simp only [applyRecipOp, insertBefore]
      exact insertBeforeKey_append RecipNode.key o.anchorId n os
        (fun y hy => Nat.ne_of_lt (lt_trans (hdn y hy) hlt)) rfl
    rw [hins]
    simp only [Option.some_bind]
    rw [append_middle done n (o :: os), append_middle done n ns]
    refine ih (done ++ [n]) ?_ ?_ (fun r hr2 => h3 r hr2) (fun r hr2 => h4 r (by simp [hr2]))
    · rw [← append_middle]
      exact pairwise_insert_middle RecipNode.key h1 hdn hlt
    · rw [← append_middle]
      exact h2

theorem mergeDays_correct :
    ∀ os ns : Tree, ∀ done : Tree,
      DaysOrdered (done ++ os) → DaysOrdered (done ++ ns) →
      (∀ dn ∈ os, DayWFn dn) → (∀ dn ∈ ns, DayWFn dn) →
      applyEditSequence (mergeDays os ns) (done ++ os) = some (done ++ ns) := by
  intro os ns
  induction os, ns using mergeDays.induct with
  | case1 =>
    intro done h1 h2 h3 h4
    simp [mergeDays, applyEditSequence]
  | case2 o os ih =>
    intro done h1 h2 h3 h4
    rw [show mergeDays (o :: os) [] = .delDay o.day :: mergeDays os [] from by rw [mergeDays]]
    simp only [applyEditSequence]
    have hdel : applyDayOp (.delDay o.day) (done ++ o :: os) = some (done ++ os) := by
      simp only [applyDayOp]
      exact deleteByKey_append DayNode.key o.day os (done_key_ne DayNode.key h1) rfl
    rw [hdel]
    simp only [Option.some_bind]
    exact ih done (pairwise_remove_middle h1) h2 (fun r hr => h3 r (by simp [hr])) h4
  | case3 n ns ih =>
    intro done h1 h2 h3 h4
    rw [show mergeDays [] (n :: ns) = .insDay none n :: mergeDays [] ns from by rw [mergeDays]]
    simp only [applyEditSequence]
    have hins : applyDayOp (.insDay none n) (done ++ [])
        = some ((done ++ [n]) ++ []) := by
      simp [applyDayOp, insertBefore]
    rw [hins]
    simp only [Option.some_bind]
    rw [show done ++ n :: ns = (done ++ [n]) ++ ns from append_middle done n ns]
    refine ih (done ++ [n]) ?_ ?_ (fun r hr => absurd hr (List.not_mem_nil r)) ?_
    · have hsub : List.Sublist ((done ++ [n]) ++ []) (done ++ n :: ns) := by
        simp only [List.append_nil]
        rw [append_middle done n ns]
        exact List.sublist_append_left _ _
      exact List.Pairwise.sublist hsub h2
    · rw [← append_middle]
      exact h2
    · exact fun r hr => h4 r (by simp [hr])
  | case4 o os n ns hd ih =>
    intro done h1 h2 h3 h4
    rw [show mergeDays (o :: os) (n :: ns)
        = mergeRecips o.day o.recips n.recips ++ mergeDays os ns from by
      rw [mergeDays, if_pos hd]]
    rw [applyEditSequence_append]
    have hinner : applyRecipOps (mergeRecips o.day o.recips n.recips) o.recips
        = some n.recips := by
      have := mergeRecips_correct o.day o.recips n.recips []
        (by simpa using (h3 o (by simp)).1) (by simpa using (h4 n (by simp)).1)
        (h3 o (by simp)).2 (h4 n (by simp)).2
      simpa using this
    have hscript := dayScript_at
      (fun op hop => mergeRecips_shape o.day o.recips n.recips op hop)
      done os o n.recips (done_key_ne DayNode.key h1) rfl hinner
    rw [hscript]
    simp only [Option.some_bind]
    have hn : ({ o with recips := n.recips } : DayNode) = n := by
      cases o; cases n
      simp_all [DayNode.key]
    rw [hn]
    rw [append_middle done n os, append_middle done n ns]
    refine ih (done ++ [n]) ?_ ?_ (fun r hr2 => h3 r (by simp [hr2]))
      (fun r hr2 => h4 r (by simp [hr2]))
    · rw [← append_middle]
      exact pairwise_congr_middle DayNode.key o n hd h1
    · rw [← append_middle]
      exact h2
  | case5 o os n ns hd hle ih =>
    intro done h1 h2 h3 h4
    rw [show mergeDays (o :: os) (n :: ns)
        = .delDay o.day :: mergeDays os (n :: ns) from by
      rw [mergeDays, if_neg hd, if_pos hle]]
    simp only [applyEditSequence]
    have hdel : applyDayOp (.delDay o.day) (done ++ o :: os) = some (done ++ os) := by
      simp only [applyDayOp]
      exact deleteByKey_append DayNode.key o.day os (done_key_ne DayNode.key h1) rfl
    rw [hdel]
    simp only [Option.some_bind]
    exact ih done (pairwise_remove_middle h1) h2 (fun r hr => h3 r (by simp [hr])) h4
  | case6 o os n ns hd hle ih =>
    intro done h1 h2 h3 h4
    have hlt : n.day < o.day := by omega
    rw [show mergeDays (o :: os) (n :: ns)
        = .insDay (some o.day) n :: mergeDays (o :: os) ns from by
      rw [mergeDays, if_neg hd, if_neg hle]]
    simp only [applyEditSequence]
    have hdn : ∀ y ∈ done, DayNode.key y < DayNode.key n := pairwise_done_head h2
    have hins : applyDayOp (.insDay (some o.day) n) (done ++ o :: os)
        = some (done ++ n :: o :: os) := by
      simp only [applyDayOp, insertBefore]
      exact insertBeforeKey_append DayNode.key o.day n os
        (fun y hy => Nat.ne_of_lt (lt_trans (hdn y hy) hlt)) rfl
    rw [hins]
    simp only [Option.some_bind]
    rw [append_middle done n (o :: os), append_middle done n ns]
    refine ih (done ++ [n]) ?_ ?_ (fun r hr2 => h3 r hr2) (fun r hr2 => h4 r (by simp [hr2]))
    · rw [← append_middle]
      exact pairwise_insert_middle DayNode.key h1 hdn hlt
    · rw [← append_middle]
      exact h2

/-! ## Well-formedness of grouped trees -/

theorem chunk_heads_sublist {α κ : Type} [DecidableEq κ] (key : α → κ) (l : List α) :
    List.Sublist ((chunksBy key l).map Prod.fst) l := by
  have h : ∀ cs : List (α × List α), List.Sublist (cs.map Prod.fst) (chunkJoin cs) := by
    intro cs
    induction cs with
    | nil => simp [chunkJoin]
    | cons c cs ih =>
      simp only [List.map_cons, chunkJoin, List.flatMap_cons, List.cons_append]
      exact List.Sublist.cons₂ c.1 (ih.trans (List.sublist_append_right c.2 _))
  have h2 := h (chunksBy key l)
  rwa [chunksBy_join] at h2

theorem chunk_content_sublist {α κ : Type} [DecidableEq κ] (key : α → κ)
    {l : List α} {c : α × List α} (hc : c ∈ chunksBy key l) :
    List.Sublist (c.1 :: c.2) l := by
  have h : ∀ cs : List (α × List α), c ∈ cs → List.Sublist (c.1 :: c.2) (chunkJoin cs) := by
    intro cs hmem
    induction cs with
    | nil => cases hmem
    | cons e cs ih =>
      simp only [chunkJoin, List.flatMap_cons]
      rcases List.mem_cons.mp hmem with rfl | hmem2
      · exact List.sublist_append_left _ _
      · exact (ih hmem2).trans (List.sublist_append_right _ _)
  have h2 := h (chunksBy key l) hc
  rwa [chunksBy_join] at h2

theorem chunksBy_chain {α κ : Type} [DecidableEq κ] (key : α → κ) (l : List α) :
    List.Chain' (fun c d => key c.1 ≠ key d.1) (chunksBy key l) := by
  induction l with
  | nil => simp [chunksBy]
  | cons a rest ih =>
    cases h : chunksBy key rest with
    | nil => simp [chunksBy, h]
    | cons c more =>
      rw [h] at ih
      obtain ⟨b, bs⟩ := c
      simp only [chunksBy, h]
      by_cases hk : key a = key b
      · rw [if_pos hk]
        cases more with
        | nil => simp
        | cons m more2 =>
          rw [List.chain'_cons] at ih ⊢
          exact ⟨by rw [hk]; exact ih.1, ih.2⟩
      · rw [if_neg hk]
        rw [List.chain'_cons]
        exact ⟨hk, ih⟩

theorem chain'_and_imp {α : Type} {R S T : α → α → Prop}
    (hRST : ∀ a b, R a b → S a b → T a b) :
    ∀ l : List α, List.Chain' R l → List.Chain' S l → List.Chain' T l := by
  intro l
  induction l with
  | nil => intro _ _; simp
  | cons a l ih =>
    cases l with
    | nil => intro _ _; simp
    | cons b t =>
      intro h1 h2
      rw [List.chain'_cons] at h1 h2 ⊢
      exact ⟨hRST _ _ h1.1 h2.1, ih h1.2 h2.2⟩

theorem groupRuns_wf {ms : List Message}
    (h : List.Pairwise (fun a b => a.id < b.id) ms) :
    RunsOrdered (groupRuns ms) ∧ ∀ r ∈ groupRuns ms, ItemsWF r.items := by
  constructor
  · unfold RunsOrdered groupRuns
    have hheads : List.Pairwise (fun a b => a.id < b.id)
        ((chunksBy Message.sender ms).map Prod.fst) :=
      List.Pairwise.sublist (chunk_heads_sublist Message.sender ms) h
    have hp := List.pairwise_map.mp hheads
    exact List.Pairwise.map mkRun (fun a b hab => hab) hp
  · intro r hr
    rw [groupRuns, List.mem_map] at hr
    obtain ⟨c, hc, rfl⟩ := hr
    have hcontent : List.Pairwise (fun a b => a.id < b.id) (c.1 :: c.2) :=
      List.Pairwise.sublist (chunk_content_sublist Message.sender hc) h
    unfold ItemsWF mkRun
    exact List.Pairwise.map toItem (fun a b hab => hab) hcontent

theorem groupRecips_wf {ms : List Message}
    (h : List.Pairwise (fun a b => a.id < b.id) ms) :
    RecipsOrdered (groupRecips ms) ∧ ∀ rn ∈ groupRecips ms, RecipWFn rn := by
  constructor
  · unfold RecipsOrdered groupRecips
    have hheads : List.Pairwise (fun a b => a.id < b.id)
        ((chunksBy Message.recipient ms).map Prod.fst) :=
      List.Pairwise.sublist (chunk_heads_sublist Message.recipient ms) h
    have hp := List.pairwise_map.mp hheads
    exact List.Pairwise.map mkRecip (fun a b hab => hab) hp
  · intro rn hrn
    rw [groupRecips, List.mem_map] at hrn
    obtain ⟨c, hc, rfl⟩ := hrn
    have hcontent : List.Pairwise (fun a b => a.id < b.id) (c.1 :: c.2) :=
      List.Pairwise.sublist (chunk_content_sublist Message.recipient hc) h
    exact groupRuns_wf hcontent

theorem group_wf (nw : Narrow) (ms : List Message) (h : MessagesWF ms) :
    TreeWF (getMessageListElements ms nw) := by
  have hf : MessagesWF (ms.filter (inNarrow nw)) := List.Pairwise.filter _ h
  constructor
  · unfold getMessageListElements DaysOrdered
    have hne := chunksBy_chain dayOf (ms.filter (inNarrow nw))
    have hle : List.Chain' (fun c d : Message × List Message => dayOf c.1 ≤ dayOf d.1)
        (chunksBy dayOf (ms.filter (inNarrow nw))) := by
      have hheads : List.Pairwise (fun a b : Message => a.timestamp ≤ b.timestamp)
          ((chunksBy dayOf (ms.filter (inNarrow nw))).map Prod.fst) :=
        List.Pairwise.sublist (chunk_heads_sublist dayOf (ms.filter (inNarrow nw)))
          (hf.imp fun hab => hab.2)
      have hpc : List.Pairwise (fun c d : Message × List Message => dayOf c.1 ≤ dayOf d.1)
          (chunksBy dayOf (ms.filter (inNarrow nw))) :=
        (List.pairwise_map.mp hheads).imp
          fun hab => Nat.div_le_div_right hab
      exact hpc.chain'
    have hlt : List.Chain' (fun c d : Message × List Message => dayOf c.1 < dayOf d.1)
        (chunksBy dayOf (ms.filter (inNarrow nw))) :=
      chain'_and_imp (fun a b hR hS => lt_of_le_of_ne hR hS) _ hle hne
    have hmap : List.Chain' (· < ·)
        ((chunksBy dayOf (ms.filter (inNarrow nw))).map fun c => dayOf c.1) :=
      (List.chain'_map _).mpr hlt
    have hpair : List.Pairwise (· < ·)
        ((chunksBy dayOf (ms.filter (inNarrow nw))).map fun c => dayOf c.1) :=
      List.chain'_iff_pairwise.mp hmap
    have hp := List.pairwise_map.mp hpair
    exact List.Pairwise.map mkDay (fun a b hab => hab) hp
  · intro dn hdn
    rw [getMessageListElements, List.mem_map] at hdn
    obtain ⟨c, hc, rfl⟩ := hdn
    have hcontent : List.Pairwise (fun a b : Message => a.id < b.id) (c.1 :: c.2) :=
      List.Pairwise.sublist (chunk_content_sublist dayOf hc) (hf.imp fun hab => hab.1)
    exact groupRecips_wf hcontent

/-! ## The equivalence claim -/

theorem generate_apply_correct (bg : Nat) (nw : Narrow) (A B : List Message)
    (hA : MessagesWF A) (hB : MessagesWF B) :
    applyEditSequence
        (getEditSequence
          ⟨bg, nw, getMessageListElements A nw⟩
          ⟨bg, nw, getMessageListElements B nw⟩)
        (getMessageListElements A nw)
      = some (getMessageListElements B nw) := by
  obtain ⟨hdA, hwA⟩ := group_wf nw A hA
  obtain ⟨hdB, hwB⟩ := group_wf nw B hB
  rw [getEditSequence, if_pos ⟨rfl, rfl⟩]
  have := mergeDays_correct (getMessageListElements A nw) (getMessageListElements B nw) []
    (by simpa using hdA) (by simpa using hdB) hwA hwB
  simpa using this

/-- C1: equivalence — for any two message sequences `A`, `B` satisfying the
upstream invariant (strictly increasing identifiers, non-decreasing
timestamps) and a fixed narrow and background data, building a live tree by
fully rendering `group(A)` from empty, then applying
`generate(group(A), group(B))` to it, yields exactly the tree obtained by
fully rendering `group(B)` directly — with no partial-application artifacts
(both applications succeed outright)
(spec sections 4.1 and 8, Equivalence). -/
theorem c1_generate_apply_equivalence (bg : Nat) (nw : Narrow) (A B : List Message)
    (hA : MessagesWF A) (hB : MessagesWF B) :
    applyEditSequence
        (getEditSequence ⟨bg, nw, []⟩ ⟨bg, nw, getMessageListElements A nw⟩) []
      = some (getMessageListElements A nw)
    ∧ applyEditSequence
        (getEditSequence
          ⟨bg, nw, getMessageListElements A nw⟩
          ⟨bg, nw, getMessageListElements B nw⟩)
        (getMessageListElements A nw)
      = some (getMessageListElements B nw) :=
  ⟨from_empty_general bg nw (getMessageListElements A nw),
   generate_apply_correct bg nw A B hA hB⟩

/-- Witness for C1 at two concrete message sequences. -/
theorem c1_generate_apply_equivalence_witness :
    applyEditSequence
        (getEditSequence ⟨0, .home, []⟩
          ⟨0, .home, getMessageListElements
            [⟨1, 5, 2, "a", .pm [1, 2]⟩, ⟨4, 9, 3, "b", .pm [1, 2]⟩] .home⟩) []
      = some (getMessageListElements
          [⟨1, 5, 2, "a", .pm [1, 2]⟩, ⟨4, 9, 3, "b", .pm [1, 2]⟩] .home)
    ∧ applyEditSequence
        (getEditSequence
          ⟨0, .home, getMessageListElements
            [⟨1, 5, 2, "a", .pm [1, 2]⟩, ⟨4, 9, 3, "b", .pm [1, 2]⟩] .home⟩
          ⟨0, .home, getMessageListElements
            [⟨1, 5, 2, "a", .pm [1, 2]⟩, ⟨2, 7, 2, "c", .streamTopic 1 "t"⟩] .home⟩)
        (getMessageListElements
          [⟨1, 5, 2, "a", .pm [1, 2]⟩, ⟨4, 9, 3, "b", .pm [1, 2]⟩] .home)
      = some (getMessageListElements
          [⟨1, 5, 2, "a", .pm [1, 2]⟩, ⟨2, 7, 2, "c", .streamTopic 1 "t"⟩] .home) :=
  c1_generate_apply_equivalence 0 .home
    [⟨1, 5, 2, "a", .pm [1, 2]⟩, ⟨4, 9, 3, "b", .pm [1, 2]⟩]
    [⟨1, 5, 2, "a", .pm [1, 2]⟩, ⟨2, 7, 2, "c", .streamTopic 1 "t"⟩]
    (by decide) (by decide)

/-! ## Near-link claims -/

theorem fetchedMessage_none {env : NarrowLinkEnv}
    (hl : env.localMessage = none)
    (hcase : env.zulipFeatureLevel < 120 ∨ env.serverResponse = .error () ∨
      env.serverResponse = .ok none) :
    fetchedMessage env = none := by
  unfold fetchedMessage
  rw [hl]
  rcases hcase with h1 | h1 | h1
  · rw [if_pos h1]
  · by_cases h2 : env.zulipFeatureLevel < 120
    · rw [if_pos h2]
    · rw [if_neg h2, h1]
  · by_cases h2 : env.zulipFeatureLevel < 120
    · rw [if_pos h2]
    · rw [if_neg h2, h1]

/-- C7: for every /near/ message link, whenever the message-move lookup
cannot succeed — the message is not cached locally and the server feature
level is below 120, or the `api.getSingleMessage` request throws, or the
returned message is unexpectedly falsy, or the obtained message is a
private message — `doNarrowNearLink` navigates to the literal narrow
parsed from the link, with the link's near operand; the failure is consumed
internally (the embedded action is total and returns normally on every such
path), never propagated to the caller
(`messagesActions.js` lines 92-155). -/
theorem c7_near_link_fallback (env : NarrowLinkEnv) (narrow : Narrow) (near : Nat)
    (h : (env.localMessage = none ∧
           (env.zulipFeatureLevel < 120 ∨ env.serverResponse = .error () ∨
             env.serverResponse = .ok none))
       ∨ ∃ m, fetchedMessage env = some m ∧ m.type = .pm) :
    doNarrowNearLink env narrow near = (narrow, near) := by
  rcases h with ⟨hl, hcase⟩ | ⟨m, hm, htype⟩
  · have hf : fetchedMessage env = none := fetchedMessage_none hl hcase
    simp [doNarrowNearLink, hf]
  · simp [doNarrowNearLink, hm, htype]

/-- Witness for C7: feature level 100, no cached message, a topic-narrow
link falls back to the literal narrow. -/
theorem c7_near_link_fallback_witness :
    doNarrowNearLink
      ⟨none, 100, Except.ok none, fun _ _ => none, fun _ _ => none⟩
      (.topic 1 "general") 7
      = (.topic 1 "general", 7) :=
  c7_near_link_fallback _ _ _ (Or.inl ⟨rfl, Or.inl (by decide)⟩)

/-- C8: for a stream or topic narrow, once the referenced message is
obtained and is a stream message: when its current stream and/or topic do
not match the link's operands and the edit-history checks do not establish
that it was never in the linked stream/topic, navigation is dispatched to
a narrow rebuilt from the message's current `stream_id` (stream narrow) or
`stream_id` plus `subject` (topic narrow) with the same near operand; and
whenever the message still matches the link's operands, or provably was
never in the linked narrow, the literal narrow is used
(`messagesActions.js` lines 96-197). -/
theorem c8_move_reinterpretation (env : NarrowLinkEnv) (near : Nat) :
    (∀ sid m, fetchedMessage env = some m → m.type = .stream →
      m.stream_id ≠ sid →
      env.everInStream m sid ≠ some false →
      doNarrowNearLink env (.stream sid) near = (streamNarrow m.stream_id, near))
    ∧ (∀ sid t m, fetchedMessage env = some m → m.type = .stream →
      ¬(t = m.subject ∧ sid = m.stream_id) →
      env.everHadTopic m t ≠ some false →
      env.everInStream m sid ≠ some false →
      doNarrowNearLink env (.topic sid t) near = (topicNarrow m.stream_id m.subject, near))
    ∧ (∀ narrow m, fetchedMessage env = some m → m.type = .stream →
      (stillInLinkedNarrow (topicOperandOf narrow) (streamIdOperandOf narrow) m = true
        ∨ provablyNeverInLinkedNarrow env (topicOperandOf narrow) (streamIdOperandOf narrow) m
            = true) →
      doNarrowNearLink env narrow near = (narrow, near)) := by
  refine ⟨?_, ?_, ?_⟩
  · intro sid m hm htype hmis hist
    simp [doNarrowNearLink, streamIdOperandOf, topicOperandOf, isStreamNarrow, isTopicNarrow,
      streamIdOfNarrow, topicOfNarrow, hm, htype, stillInLinkedNarrow,
      provablyNeverInLinkedNarrow, caseNarrowDefault, streamNarrow, Ne.symm hmis, hist]
  · intro sid t m hm htype hmis histT histS
    simp [doNarrowNearLink, streamIdOperandOf, topicOperandOf, isStreamNarrow, isTopicNarrow,
      streamIdOfNarrow, topicOfNarrow, hm, htype, stillInLinkedNarrow,
      provablyNeverInLinkedNarrow, caseNarrowDefault, topicNarrow, hmis, histT, histS]
  · intro narrow m hm htype hcond
    unfold doNarrowNearLink
    by_cases h0 : streamIdOperandOf narrow = none ∧ topicOperandOf narrow = none
    · rw [if_pos h0]
    · rw [if_neg h0]
      simp only [hm]
      have hpm : ¬m.type = MessageType.pm := by simp [htype]
      rw [if_neg hpm]
      by_cases h1 :
          stillInLinkedNarrow (topicOperandOf narrow) (streamIdOperandOf narrow) m = true
      · rw [if_pos h1]
      · rw [if_neg h1]
        rcases hcond with hc | hc
        · exact absurd hc h1
        · rw [if_pos hc]

/-- Witness for C8: a cached stream message with stream id 2 and subject
"latest", reached through links naming stream 1 / topic "old", plus a link
whose operands still match. -/
theorem c8_move_reinterpretation_witness :
    doNarrowNearLink
      ⟨some ⟨.stream, 2, "latest"⟩, 150, Except.ok none, fun _ _ => none, fun _ _ => none⟩
      (.stream 1) 7
      = (streamNarrow 2, 7)
    ∧ doNarrowNearLink
      ⟨some ⟨.stream, 2, "latest"⟩, 150, Except.ok none, fun _ _ => none, fun _ _ => none⟩
      (.topic 1 "old") 7
      = (topicNarrow 2 "latest", 7)
    ∧ doNarrowNearLink
      ⟨some ⟨.stream, 2, "latest"⟩, 150, Except.ok none, fun _ _ => none, fun _ _ => none⟩
      (.stream 2) 7
      = (.stream 2, 7) :=
  ⟨(c8_move_reinterpretation _ 7).1 1 ⟨.stream, 2, "latest"⟩ rfl rfl (by decide) (by simp),
   (c8_move_reinterpretation _ 7).2.1 1 "old" ⟨.stream, 2, "latest"⟩ rfl rfl (by decide)
     (by simp) (by simp),
   (c8_move_reinterpretation _ 7).2.2 (.stream 2) ⟨.stream, 2, "latest"⟩ rfl rfl
     (Or.inl (by decide))⟩

end ZulipSpec
